import Mathlib

/-!
A shallow embedding of the retrieval core of `rag_chat.py` (query classifier,
MMR diversity selector, relevance-floor search, context assembler, and the
`answer_with_index` orchestrator), together with theorems checking the
natural-language specification against this embedding.

Modelling conventions:
* Python strings are modelled as lists of Unicode codepoints (`PyStr := List Nat`);
  `str.lower()` is modelled on its ASCII fragment (the only one the source's
  string tables exercise); `str.strip()` / `str.split()` use the ASCII
  whitespace characters.
* Python floats are idealised as exact rationals (`ℚ`); `0.16`, `0.80`, and the
  `-1e9` sentinel of `mmr_select` are carried over verbatim as rationals.
* External collaborators (the embedding API, the chat model, and
  `centroid_vector`, whose renormalisation divides by an irrational L2 norm)
  are parameters of the orchestrator model; everything else is translated
  directly from the source.
* Fallible code paths (the `-1e9` sentinel of `mmr_select` producing a `None`
  pick that numpy indexing then rejects, and `AttributeError` raised by
  `.strip()` on non-string JSON fields) are modelled with `Option` / `Except`.
-/

set_option allowUnsafeReducibility true in
attribute [semireducible] Rat.mul Rat.add Rat.sub Rat.div Rat.neg Rat.blt Rat.normalize Rat.inv

/-- Python strings as lists of Unicode codepoints. -/
abbrev PyStr := List Nat

/-- Convert a Lean string literal to its codepoint list. -/
def strLit (s : String) : PyStr := s.toList.map Char.toNat

/-- ASCII whitespace recognised by Python `str.strip()` / `str.split()`
(space, tab, newline, vertical tab, form feed, carriage return). -/
def isWs (c : Nat) : Bool := c == 32 || c == 9 || c == 10 || c == 11 || c == 12 || c == 13

/-- `str.lower()` on the ASCII fragment: map codepoints 65–90 to 97–122. -/
def toLowerCp (c : Nat) : Nat := if 65 ≤ c ∧ c ≤ 90 then c + 32 else c

/-- `str.lower()` over a whole string. -/
def pyLower (s : PyStr) : PyStr := s.map toLowerCp

/-- Drop leading whitespace (the left half of `str.strip()`). -/
def pyStripL : PyStr → PyStr
  | [] => []
  | c :: cs => if isWs c then pyStripL cs else c :: cs

/-- Drop trailing whitespace (the right half of `str.strip()`). -/
def pyStripR : PyStr → PyStr
  | [] => []
  | c :: cs => if pyStripR cs = [] && isWs c then [] else c :: pyStripR cs

/-- Python `str.strip()` with no arguments. -/
def pyStrip (s : PyStr) : PyStr := pyStripR (pyStripL s)

/-- Helper for `pySplit`: accumulate the current (reversed) token. -/
def pySplitAux : PyStr → PyStr → List PyStr
  | [], acc => if acc = [] then [] else [acc.reverse]
  | c :: cs, acc =>
    if isWs c then
      if acc = [] then pySplitAux cs [] else acc.reverse :: pySplitAux cs []
    else pySplitAux cs (c :: acc)

/-- Python `str.split()` with no arguments: split on whitespace runs,
discarding empty tokens. -/
def pySplit (s : PyStr) : List PyStr := pySplitAux s []

/-- Does `hay` start with `needle`?  (Python `str.startswith`.) -/
def startsWithStr : PyStr → PyStr → Bool
  | _, [] => true
  | [], _ :: _ => false
  | h :: t, n :: ns => (h == n) && startsWithStr t ns

/-- Python substring containment `needle in hay`. -/
def containsSub : PyStr → PyStr → Bool
  | [], needle => needle == []
  | h :: t, needle => startsWithStr (h :: t) needle || containsSub t needle

/-- Python `sep.join(blocks)`. -/
def pyJoin (sep : PyStr) : List PyStr → PyStr
  | [] => []
  | [b] => b
  | b :: bs => b ++ sep ++ pyJoin sep bs

/-! ### Query classifier (`rag_chat.py` lines 16–53) -/

/-- The `_GREETINGS` set. -/
def GREETINGS : List PyStr :=
  [strLit "hi", strLit "hello", strLit "hey", strLit "hi!", strLit "hello!", strLit "hey!",
   strLit "good morning", strLit "good afternoon", strLit "good evening"]

/-- The `_FAREWELLS` set. -/
def FAREWELLS : List PyStr :=
  [strLit "bye", strLit "goodbye", strLit "see you", strLit "thanks", strLit "thank you",
   strLit "that\x27s all", strLit "done", strLit "exit", strLit "quit"]

/-- `is_greeting`: the trimmed, lowercased query is exactly one of the greeting phrases. -/
def is_greeting (q : PyStr) : Bool := GREETINGS.contains (pyLower (pyStrip q))

/-- `is_farewell`: the trimmed, lowercased query contains one of the farewell phrases
as a substring. -/
def is_farewell (q : PyStr) : Bool :=
  FAREWELLS.any (fun f => containsSub (pyLower (pyStrip q)) f)

/-- The breadth markers of `is_broad_query`. -/
def BROAD_MARKERS : List PyStr :=
  [strLit "overview", strLit "tell me about", strLit "general", strLit "summary",
   strLit "summarize"]

/-- `is_broad_query`: at most two tokens, or some breadth marker occurs in the query. -/
def is_broad_query (q : PyStr) : Bool :=
  let qn := pyLower (pyStrip q)
  decide ((pySplit qn).length ≤ 2) || BROAD_MARKERS.any (fun h => containsSub qn h)

/-- The single-word question-word whitelist of `is_topic_change`. -/
def QUESTION_WORDS : List PyStr :=
  [strLit "what", strLit "how", strLit "why", strLit "when", strLit "where"]

/-- The stop-word set used when filtering "meaningful" common words. -/
def STOP_WORDS : List PyStr :=
  [strLit "that", strLit "this", strLit "with", strLit "have", strLit "from",
   strLit "they", strLit "were", strLit "been", strLit "said", strLit "what",
   strLit "how", strLit "why", strLit "when", strLit "where"]

/-- `is_topic_change(q, last_answer)` translated from the source.  Python set
intersection is modelled by a list filter: only emptiness of the meaningful
common-word collection is ever inspected, and that is invariant under
deduplication and ordering. -/
def is_topic_change (q : PyStr) (last_answer : PyStr) : Bool :=
  let qn := pyLower (pyStrip q)
  if is_greeting qn || is_farewell qn then true
  else if decide ((pySplit qn).length ≤ 2) && !(QUESTION_WORDS.contains qn) then true
  else if last_answer ≠ [] then
    let answer_words := pySplit (pyLower last_answer)
    let query_words := pySplit qn
    let common := answer_words.filter (fun w => query_words.contains w)
    let meaningful := common.filter (fun w => decide (3 < w.length) && !(STOP_WORDS.contains w))
    if meaningful.length = 0 && decide (1 < (pySplit qn).length) then true else false
  else false

/-! ### Similarity scorer and MMR diversity selector (`rag_chat.py` lines 91–119) -/

/-- Dot product of two equal-length vectors (`a @ b` on unit-normalized rows). -/
def dotL (a b : List ℚ) : ℚ := (List.zipWith (· * ·) a b).sum

/-- `sims = embs @ qvec`: entry `i` is row `i` of the matrix dotted with the query. -/
def simsOf (embs : List (List ℚ)) (qvec : List ℚ) : List ℚ :=
  embs.map (fun row => dotL row qvec)

/-- Python `max` over a generator, guarded by `if selected else 0.0` in the source:
the empty case yields `0`. -/
def pyMax : List ℚ → ℚ
  | [] => 0
  | x :: xs => xs.foldl max x

/-- The order `np.argsort(-similarities)` arranges indices by: strictly larger
similarity first, ties broken by smaller original index (stable descending sort). -/
def argsortRel (sims : List ℚ) : Nat → Nat → Prop := fun i j =>
  sims.getD j 0 < sims.getD i 0 ∨ (sims.getD i 0 = sims.getD j 0 ∧ i ≤ j)

instance argsortRelDecidable (sims : List ℚ) : DecidableRel (argsortRel sims) := fun i j => by
  unfold argsortRel
  infer_instance

/-- `np.argsort(-similarities)`: all indices `0..N-1` sorted by descending
similarity, ties by original index order. -/
def argsortDesc (sims : List ℚ) : List Nat :=
  List.insertionSort (argsortRel sims) (List.range sims.length)

/-- `pool_idx = np.argsort(-similarities)[:min(pool_size, len(similarities))]`. -/
def mmrPool (sims : List ℚ) (pool_size : Nat) : List Nat :=
  (argsortDesc sims).take (min pool_size sims.length)

/-- The MMR combined score of candidate `i` against the already-selected list:
`lambda_mult * rel - (1 - lambda_mult) * div`, where `div` is the maximum dot
product with an already-selected embedding (`0.0` for an empty selection). -/
def mmrScore (sims : List ℚ) (embs : List (List ℚ)) (lam : ℚ) (selected : List Nat)
    (i : Nat) : ℚ :=
  let rel := sims.getD i 0
  let div :=
    if selected = [] then 0
    else pyMax (selected.map (fun j => dotL (embs.getD i []) (embs.getD j [])))
  lam * rel - (1 - lam) * div

/-- The inner argmax loop of `mmr_select`: fold over the remaining candidates
starting from `best_i, best_score = None, -1e9`, updating on strict improvement. -/
def mmrBest (score : Nat → ℚ) (remaining : List Nat) : Option Nat × ℚ :=
  remaining.foldl (fun acc i => if acc.2 < score i then (some i, score i) else acc)
    (none, -(1000000000 : ℚ))

/-- The `while` loop of `mmr_select`, with fuel equal to the number of remaining
iterations.  A `None` best pick (possible only when every candidate scores at or
below the `-1e9` sentinel) is modelled as failure: the Python code would append
`None` and the next iteration's `embeddings[None]` indexing misbehaves. -/
def mmrLoop (sims : List ℚ) (embs : List (List ℚ)) (lam : ℚ) (pool : List Nat) :
    Nat → List Nat → Option (List Nat)
  | 0, selected => some selected
  | fuel + 1, selected =>
    let remaining := pool.filter (fun i => !(selected.contains i))
    match (mmrBest (mmrScore sims embs lam selected) remaining).1 with
    | none => none
    | some i => mmrLoop sims embs lam pool fuel (selected ++ [i])

/-- `mmr_select(similarities, embeddings, top_k, lambda_mult, pool_size)`.
The seed `pool_idx[0]` is taken unconditionally; the loop then runs while
`len(selected) < min(top_k, len(pool_idx))`. -/
def mmr_select (sims : List ℚ) (embs : List (List ℚ)) (top_k : Nat) (lam : ℚ)
    (pool_size : Nat) : Option (List Nat) :=
  let pool := mmrPool sims pool_size
  match pool with
  | [] => some []
  | p0 :: _ => mmrLoop sims embs lam pool (min top_k pool.length - 1) [p0]

/-- First-wins argmax over `x :: xs` (ties keep the earlier candidate). -/
def argmaxFirst (score : Nat → ℚ) (x : Nat) (xs : List Nat) : Nat :=
  xs.foldl (fun b y => if score b < score y then y else b) x

/-- The iteration of the specified MMR algorithm: among the remaining pooled
candidates (in pool order), add the one maximizing the combined score, first
candidate winning ties. -/
def mmrSpecLoop (sims : List ℚ) (embs : List (List ℚ)) (lam : ℚ) (pool : List Nat) :
    Nat → List Nat → List Nat
  | 0, selected => selected
  | fuel + 1, selected =>
    match pool.filter (fun i => !(selected.contains i)) with
    | [] => selected
    | r0 :: rest =>
      mmrSpecLoop sims embs lam pool fuel
        (selected ++ [argmaxFirst (mmrScore sims embs lam selected) r0 rest])

/-- The MMR selection procedure exactly as the specification words it (for the
refinement claim): restrict to the `poolSize` highest-scoring indices under the
stable descending sort, seed with the single highest-scoring pooled candidate,
then repeatedly add the remaining pooled candidate maximizing
`lambda*similarity - (1-lambda)*diversity`, ties broken by pool order. -/
def mmr_spec (sims : List ℚ) (embs : List (List ℚ)) (top_k : Nat) (lam : ℚ)
    (pool_size : Nat) : List Nat :=
  let pool := mmrPool sims pool_size
  match pool with
  | [] => []
  | p0 :: _ => mmrSpecLoop sims embs lam pool (min top_k pool.length - 1) [p0]

/-! ### Search with relevance floor (`rag_chat.py` lines 109–119) -/

/-- One `{source, text}` metadata record. -/
structure MetaRec where
  source : PyStr
  text : PyStr
deriving DecidableEq

/-- One `{score, source, text}` retrieval result. -/
structure RResult where
  score : ℚ
  source : PyStr
  text : PyStr
deriving DecidableEq

/-- `results = [{"score": sims[i], "source": meta[i]["source"], "text": meta[i]["text"]} for i in idx]`. -/
def materialize (sims : List ℚ) (meta : List MetaRec) (idx : List Nat) : List RResult :=
  idx.map (fun i => ⟨sims.getD i 0, (meta.getD i ⟨[], []⟩).source, (meta.getD i ⟨[], []⟩).text⟩)

/-- The relevance-floor filter: if any results exist, keep only those whose score
is at least `max(0.16, 0.80 * results[0].score)`. -/
def relevance_floor (results : List RResult) : List RResult :=
  match results with
  | [] => []
  | r0 :: _ => results.filter (fun r => decide (max ((16 : ℚ)/100) ((80/100) * r0.score) ≤ r.score))

/-- `search(embs, meta, qvec=..., top_k, lambda_mult, pool_size)` for an explicit
query vector (when called with a text query the source first embeds it; the
orchestrator model below passes the embedded vector here). -/
def search (embs : List (List ℚ)) (meta : List MetaRec) (qvec : List ℚ)
    (top_k : Nat) (lam : ℚ) (pool_size : Nat) : Option (List RResult) :=
  let sims := simsOf embs qvec
  (mmr_select sims embs top_k lam pool_size).map
    (fun idx => relevance_floor (materialize sims meta idx))

/-! ### Markdown stripping and context assembly (`rag_chat.py` lines 55–59, 121–132) -/

/-- For the lazy regex `\*\*(.*?)\*\*`: given the text after an opening `**`,
find the earliest closing `**` not separated by a newline; return the enclosed
text and the remainder after the closing delimiter. -/
def findClose : PyStr → Option (PyStr × PyStr)
  | 42 :: 42 :: rest => some ([], rest)
  | c :: cs => if c = 10 then none else (findClose cs).map (fun p => (c :: p.1, p.2))
  | [] => none

/-- `re.sub(r"\*\*(.*?)\*\*", r"\1", s)` with fuel (one unit per scanned or
replaced position; `fuel = s.length` always suffices). -/
def subBoldF : Nat → PyStr → PyStr
  | 0, l => l
  | _ + 1, [] => []
  | fuel + 1, 42 :: 42 :: cs =>
    (match findClose cs with
     | some (inner, rest) => inner ++ subBoldF fuel rest
     | none => 42 :: subBoldF fuel (42 :: cs))
  | fuel + 1, c :: cs => c :: subBoldF fuel cs

/-- `str.replace(pat, "")`: remove all (left-to-right, non-overlapping)
occurrences of a non-empty pattern. -/
def removeAllF (pat : PyStr) : Nat → PyStr → PyStr
  | 0, l => l
  | _ + 1, [] => []
  | fuel + 1, c :: cs =>
    if startsWithStr (c :: cs) pat then removeAllF pat fuel ((c :: cs).drop pat.length)
    else c :: removeAllF pat fuel cs

/-- `strip_md`: drop `**bold**` delimiters, then any remaining `**` and backticks. -/
def strip_md (s : PyStr) : PyStr :=
  if s = [] then s
  else
    let s1 := subBoldF s.length s
    let s2 := removeAllF [42, 42] s1.length s1
    removeAllF [96] s2.length s2

/-- The chunk a result contributes to the context: markdown-stripped, trimmed
text, truncated to `per_chunk_limit` when that limit is non-zero and exceeded. -/
def bcChunk (per_chunk_limit : Nat) (r : RResult) : PyStr :=
  let chunk := strip_md (pyStrip r.text)
  if per_chunk_limit ≠ 0 ∧ per_chunk_limit < chunk.length then chunk.take per_chunk_limit
  else chunk

/-- The `for`/`break` loop of `build_context`, with the running total explicit. -/
def bcAux (char_budget per_chunk_limit : Nat) : List RResult → Nat → List PyStr × List RResult
  | [], _ => ([], [])
  | r :: rs, total =>
    let chunk := bcChunk per_chunk_limit r
    let add := chunk.length + 4
    if char_budget < total + add then ([], [])
    else
      let p := bcAux char_budget per_chunk_limit rs (total + add)
      (chunk :: p.1, r :: p.2)

/-- The separator `"\n\n---\n\n"` used to join context blocks (7 characters). -/
def CONTEXT_SEP : PyStr := strLit "\n\n---\n\n"

/-- `build_context(results, char_budget=..., per_chunk_limit=...)`: the joined
context string and the list of results actually taken. -/
def build_context (results : List RResult) (char_budget : Nat) (per_chunk_limit : Nat) :
    PyStr × List RResult :=
  let p := bcAux char_budget per_chunk_limit results 0
  (pyJoin CONTEXT_SEP p.1, p.2)

/-! ### JSON reply parsing (`rag_chat.py` lines 163–176) -/

/-- Parsed Python values as produced by `json.loads`. -/
inductive PyVal where
  | null
  | bool (b : Bool)
  | num (q : ℚ)
  | str (s : PyStr)
  | arr (xs : List PyVal)
  | obj (kvs : List (PyStr × PyVal))

/-- Python truthiness of a parsed value. -/
def pyTruthy : PyVal → Bool
  | .null => false
  | .bool b => b
  | .num q => decide (q ≠ 0)
  | .str s => !s.isEmpty
  | .arr xs => !xs.isEmpty
  | .obj kvs => !kvs.isEmpty

/-- `dict.get`: first (only, after duplicate collapsing) binding of a key. -/
def dictGet (kvs : List (PyStr × PyVal)) (k : PyStr) : Option PyVal :=
  (kvs.find? (fun kv => kv.1 == k)).map Prod.snd

/-- Python dict update semantics: a repeated key keeps its original position but
takes the latest value. -/
def dictInsert (kvs : List (PyStr × PyVal)) (k : PyStr) (v : PyVal) : List (PyStr × PyVal) :=
  if kvs.any (fun kv => kv.1 == k) then
    kvs.map (fun kv => if kv.1 == k then (k, v) else kv)
  else kvs ++ [(k, v)]

/-- Collapse duplicate keys of a parsed JSON object, later values winning. -/
def collapseDups (kvs : List (PyStr × PyVal)) : List (PyStr × PyVal) :=
  kvs.foldl (fun acc kv => dictInsert acc kv.1 kv.2) []

/-- JSON insignificant whitespace. -/
def jsonWsDrop (s : PyStr) : PyStr :=
  s.dropWhile (fun c => c == 32 || c == 9 || c == 10 || c == 13)

/-- ASCII digit test. -/
def isDigitCp (c : Nat) : Bool := decide (48 ≤ c) && decide (c ≤ 57)

/-- Hexadecimal digit value. -/
def hexVal (c : Nat) : Option Nat :=
  if 48 ≤ c ∧ c ≤ 57 then some (c - 48)
  else if 97 ≤ c ∧ c ≤ 102 then some (c - 87)
  else if 65 ≤ c ∧ c ≤ 70 then some (c - 55)
  else none

/-- Decimal digits to a natural number. -/
def digitsToNat (ds : List Nat) : Nat := ds.foldl (fun a d => a * 10 + d) 0

/-- JSON string body (after the opening quote): strict mode, the usual escapes;
`\uXXXX` yields the raw codepoint (surrogate-pair combining for astral
characters is not modelled). -/
def parseJStr : Nat → PyStr → Option (PyStr × PyStr)
  | 0, _ => none
  | _ + 1, [] => none
  | fuel + 1, c :: cs =>
    if c = 34 then some ([], cs)
    else if c = 92 then
      match cs with
      | e :: cs1 =>
        let esc := fun (x : Nat) (rest : PyStr) =>
          (parseJStr fuel rest).map (fun p => (x :: p.1, p.2))
        if e = 34 then esc 34 cs1
        else if e = 92 then esc 92 cs1
        else if e = 47 then esc 47 cs1
        else if e = 98 then esc 8 cs1
        else if e = 102 then esc 12 cs1
        else if e = 110 then esc 10 cs1
        else if e = 114 then esc 13 cs1
        else if e = 116 then esc 9 cs1
        else if e = 117 then
          match cs1 with
          | h1 :: h2 :: h3 :: h4 :: cs2 =>
            (match hexVal h1, hexVal h2, hexVal h3, hexVal h4 with
             | some a, some b, some c2, some d => esc (((a * 16 + b) * 16 + c2) * 16 + d) cs2
             | _, _, _, _ => none)
          | _ => none
        else none
      | [] => none
    else if c < 32 then none
    else (parseJStr fuel cs).map (fun p => (c :: p.1, p.2))

/-- Optional JSON fraction part. -/
def parseFracPart : PyStr → Option (ℚ × PyStr)
  | 46 :: rest =>
    let fds := (rest.takeWhile isDigitCp).map (fun c => c - 48)
    if fds.isEmpty then none
    else some ((digitsToNat fds : ℚ) / ((10 : ℚ) ^ fds.length), rest.dropWhile isDigitCp)
  | s => some (0, s)

/-- Optional JSON exponent part, returned as a multiplier. -/
def parseExpPart : PyStr → Option (ℚ × PyStr)
  | c :: rest =>
    if c = 101 ∨ c = 69 then
      let sgn : Bool × PyStr :=
        match rest with
        | 43 :: r => (false, r)
        | 45 :: r => (true, r)
        | _ => (false, rest)
      let eds := (sgn.2.takeWhile isDigitCp).map (fun c => c - 48)
      if eds.isEmpty then none
      else
        some (if sgn.1 then 1 / (10 : ℚ) ^ digitsToNat eds else (10 : ℚ) ^ digitsToNat eds,
          sgn.2.dropWhile isDigitCp)
    else some (1, c :: rest)
  | [] => some (1, [])

/-- JSON number (integer part must be `0` or start with a nonzero digit). -/
def parseJNum (s : PyStr) : Option (ℚ × PyStr) :=
  let sgn : Bool × PyStr :=
    match s with
    | 45 :: rest => (true, rest)
    | _ => (false, s)
  let ids := (sgn.2.takeWhile isDigitCp).map (fun c => c - 48)
  let s2 := sgn.2.dropWhile isDigitCp
  if ids.isEmpty then none
  else if 1 < ids.length ∧ ids.headD 1 = 0 then none
  else
    match parseFracPart s2 with
    | none => none
    | some (f, s3) =>
      match parseExpPart s3 with
      | none => none
      | some (m, s4) =>
        some ((if sgn.1 then -1 else 1) * ((digitsToNat ids : ℚ) + f) * m, s4)

/-- Which nonterminal a recursive-descent step parses: a value, the items of an
array after `[` or `,`, or the members of an object after the opening brace
or `,`.  A single mode-indexed function keeps the recursion structural. -/
inductive PMode where
  | value
  | arrItems
  | objItems

/-- Result of one recursive-descent step, matching the mode. -/
inductive PRes where
  | value (v : PyVal)
  | arrItems (xs : List PyVal)
  | objItems (kvs : List (PyStr × PyVal))

/-- Recursive-descent JSON parser with fuel (`2 * length + 4` always suffices;
fuel is spent only when descending past a consumed delimiter). -/
def parseJ : Nat → PMode → PyStr → Option (PRes × PyStr)
  | 0, _, _ => none
  | fuel + 1, .value, s0 =>
    let s := jsonWsDrop s0
    match s with
    | [] => none
    | c :: cs =>
      if c = 110 then
        if startsWithStr s (strLit "null") then some (.value .null, s.drop 4) else none
      else if c = 116 then
        if startsWithStr s (strLit "true") then some (.value (.bool true), s.drop 4) else none
      else if c = 102 then
        if startsWithStr s (strLit "false") then some (.value (.bool false), s.drop 5) else none
      else if c = 34 then
        (parseJStr fuel cs).map (fun p => (.value (.str p.1), p.2))
      else if c = 91 then
        match jsonWsDrop cs with
        | 93 :: rest => some (.value (.arr []), rest)
        | _ =>
          match parseJ fuel .arrItems cs with
          | some (.arrItems xs, r) => some (.value (.arr xs), r)
          | _ => none
      else if c = 123 then
        match jsonWsDrop cs with
        | 125 :: rest => some (.value (.obj []), rest)
        | _ =>
          match parseJ fuel .objItems cs with
          | some (.objItems kvs, r) => some (.value (.obj (collapseDups kvs)), r)
          | _ => none
      else
        (parseJNum s).map (fun p => (.value (.num p.1), p.2))
  | fuel + 1, .arrItems, s =>
    match parseJ fuel .value s with
    | some (.value v, r1) =>
      (match jsonWsDrop r1 with
       | 93 :: rest => some (.arrItems [v], rest)
       | 44 :: rest =>
         match parseJ fuel .arrItems rest with
         | some (.arrItems xs, r2) => some (.arrItems (v :: xs), r2)
         | _ => none
       | _ => none)
    | _ => none
  | fuel + 1, .objItems, s =>
    match jsonWsDrop s with
    | 34 :: cs =>
      (match parseJStr fuel cs with
       | none => none
       | some (k, r1) =>
         match jsonWsDrop r1 with
         | 58 :: r2 =>
           (match parseJ fuel .value r2 with
            | some (.value v, r3) =>
              (match jsonWsDrop r3 with
               | 125 :: rest => some (.objItems [(k, v)], rest)
               | 44 :: rest =>
                 match parseJ fuel .objItems rest with
                 | some (.objItems kvs, r4) => some (.objItems ((k, v) :: kvs), r4)
                 | _ => none
               | _ => none)
            | _ => none)
         | _ => none)
    | _ => none

/-- One JSON value. -/
def parseJVal (fuel : Nat) (s : PyStr) : Option (PyVal × PyStr) :=
  match parseJ fuel .value s with
  | some (.value v, r) => some (v, r)
  | _ => none

/-- `json.loads`: a single JSON document with nothing but whitespace after it. -/
def json_loads (s : PyStr) : Option PyVal :=
  match parseJVal (2 * s.length + 4) s with
  | none => none
  | some (v, rest) => if (jsonWsDrop rest).isEmpty then some v else none

/-- `re.sub(r"[^\x20-\x7E]+", " ", blob)`: each run of non-printable characters
becomes a single space. -/
def scrubAux : PyStr → Bool → PyStr
  | [], _ => []
  | c :: cs, inRun =>
    if 32 ≤ c ∧ c ≤ 126 then c :: scrubAux cs false
    else if inRun then scrubAux cs true
    else 32 :: scrubAux cs true

/-- Scrub the whole string (no pending non-printable run initially). -/
def scrubNonPrintable (s : PyStr) : PyStr := scrubAux s false

/-- `re.search(r"\x7b.*\x7d", text, re.DOTALL)`: the (greedy, leftmost) blob
from the first opening brace to the last closing brace after it. -/
def firstBraceBlob (text : PyStr) : Option PyStr :=
  let pre := text.dropWhile (fun c => c != 123)
  match pre with
  | [] => none
  | _ :: _ =>
    match pre.reverse.dropWhile (fun c => c != 125) with
    | [] => none
    | c :: cut => some (c :: cut).reverse

/-- `parse_json_object`: extract the first brace-delimited blob, `json.loads` it,
retrying once with non-printable characters scrubbed. -/
def parse_json_object (text : PyStr) : Option PyVal :=
  match firstBraceBlob text with
  | none => none
  | some blob =>
    match json_loads blob with
    | some v => some v
    | none => json_loads (scrubNonPrintable blob)

/-! ### The `answer_with_index` orchestrator (`rag_chat.py` lines 179–274) -/

/-- The fixed fallback answer returned when no results survive the relevance floor. -/
def FALLBACK_ANSWER : PyStr :=
  strLit "I don\x27t have that information in the provided documents."

/-- The fixed fallback follow-up chips for the no-evidence case. -/
def FALLBACK_CHIPS : List PyStr :=
  [strLit "Show key topics covered", strLit "Outline main sections in these docs",
   strLit "What should I read first"]

/-- The fixed general-help chips forced on farewells. -/
def FAREWELL_CHIPS : List PyStr :=
  [strLit "What topics are covered here", strLit "Show me key information",
   strLit "Help me get started"]

/-- The backfill chips appended when fewer than three chips were produced. -/
def BACKFILL_CHIPS : List PyStr :=
  [strLit "Show key topics covered", strLit "Outline main sections in these docs",
   strLit "What should I read first", strLit "Give me a quick start checklist",
   strLit "Summarize major best practices here"]

/-- The refusal phrases of `is_refusal` (duplicates as in the source). -/
def REFUSAL_PHRASES : List PyStr :=
  [strLit "i don\x27t have that information", strLit "i don\x27t have that information",
   strLit "not in the provided documents", strLit "not in the context",
   strLit "i couldn\x27t find", strLit "i couldn\x27t find",
   strLit "i\x27m not sure", strLit "i am not sure"]

/-- `is_refusal`: some refusal phrase occurs in the lowercased message. -/
def is_refusal (msg : PyStr) : Bool :=
  REFUSAL_PHRASES.any (fun p => containsSub (pyLower msg) p)

/-- Words whose presence in a farewell answer suppresses the canned goodbye. -/
def FAREWELL_ANS_WORDS : List PyStr :=
  [strLit "goodbye", strLit "bye", strLit "farewell", strLit "thanks"]

/-- The canned goodbye answer. -/
def GOODBYE_ANS : PyStr :=
  strLit "Goodbye! Feel free to ask if you need help with anything else."

/-- `USER_SINGLE_TEMPLATE.format(q=..., ctx=...)`. -/
def USER_SINGLE_TEMPLATE (q ctx : PyStr) : PyStr :=
  strLit "QUESTION:\n" ++ q ++ strLit "\n\nCONTEXT (use this only):\n" ++ ctx ++
  strLit "\n\nRespond ONLY with JSON like:\n\x7b\"answer\":\"...plain text...\",\"chips\":[\"chip1\",\"chip2\",\"chip3\"]\x7d"

/-- `USER_SINGLE_TEMPLATE_WITH_CONTEXT.format(q=..., last=..., ctx=...)`. -/
def USER_SINGLE_TEMPLATE_WITH_CONTEXT (q last ctx : PyStr) : PyStr :=
  strLit "QUESTION:\n" ++ q ++
  strLit "\n\nPREVIOUS_CONTEXT (for follow-up questions only):\n" ++ last ++
  strLit "\n\nCONTEXT (use this only):\n" ++ ctx ++
  strLit "\n\nRespond ONLY with JSON like:\n\x7b\"answer\":\"...plain text...\",\"chips\":[\"chip1\",\"chip2\",\"chip3\"]\x7d"

/-- `data.get(key)` where `data = parse_json_object(raw) or \x7b\x7d`: a missing key or
an unparsed reply yields `None`.  A brace-delimited blob can only parse to an
object, so the non-object cases are unreachable and also yield `None`. -/
def dataGet (data : Option PyVal) (k : PyStr) : Option PyVal :=
  match data with
  | some (.obj kvs) => dictGet kvs k
  | _ => none

/-- `(v or "")` for an optional dict value: `None` or any falsy value becomes `""`. -/
def pyValOrEmptyStr : Option PyVal → PyVal
  | some w => if pyTruthy w then w else .str []
  | none => .str []

/-- `.strip()` on a parsed value: succeeds only on strings, any other (truthy)
value raises `AttributeError`. -/
def pyStrOfVal : PyVal → Except Unit PyStr
  | .str s => .ok (pyStrip s)
  | _ => .error ()

/-- Python `for c in x`: lists iterate elements, strings iterate one-character
strings, dicts iterate keys; anything else raises `TypeError`. -/
def pyIterate : PyVal → Except Unit (List PyVal)
  | .arr xs => .ok xs
  | .str s => .ok (s.map (fun c => .str [c]))
  | .obj kvs => .ok (kvs.map (fun kv => .str kv.1))
  | _ => .error ()

/-- One step of the chips comprehension
`[strip_md((c or "").strip()) for c in ... if (c or "").strip()]`:
`none` means the item was filtered out by the emptiness test. -/
def chipOfItem (c : PyVal) : Except Unit (Option PyStr) :=
  match (if pyTruthy c then c else .str []) with
  | .str s =>
    let t := pyStrip s
    .ok (if t.isEmpty then none else some (strip_md t))
  | _ => .error ()

/-- The backfill loop: `for b in backfill: if b not in chips: chips.append(b);
if len(chips) >= 3: break`. -/
def backfillLoop : List PyStr → List PyStr → List PyStr
  | [], chips => chips
  | b :: bs, chips =>
    let chips1 := if chips.contains b then chips else chips ++ [b]
    if 3 ≤ chips1.length then chips1 else backfillLoop bs chips1

/-- The final chips of `answer_with_index` (lines 231–256): farewells force the
three fixed general-help chips; otherwise fewer than three chips are backfilled
from the fixed list; the result is capped at five. -/
def awiFinalChips (farewell : Bool) (chips0 : List PyStr) : List PyStr :=
  (if farewell then FAREWELL_CHIPS.take 3
   else if chips0.length < 3 then backfillLoop BACKFILL_CHIPS chips0
   else chips0).take 5

/-- The observable outcome of `answer_with_index`, with two control-flow
observations: whether the centroid vector was chosen as the query vector and
whether the language model was called. -/
structure AWIOut where
  answer : PyStr
  chips : List PyStr
  usedCentroid : Bool
  llmCalled : Bool
deriving DecidableEq

/-- The retrieval stage of `answer_with_index` (lines 184–198): classification,
query-vector strategy, and the `search` call.  Returns the search outcome, the
context character budget, and whether the centroid vector was used.
`centroidFn` abstracts `centroid_vector` (whose renormalisation is a float
`sqrt`) and `embedFn` abstracts the external `embed_query`. -/
def awiRetrieval (centroidFn : List (List ℚ) → List ℚ) (embedFn : PyStr → List ℚ)
    (embs : List (List ℚ)) (meta : List MetaRec) (query : PyStr) (top_k : Nat) :
    Option (List RResult) × Nat × Bool :=
  let greeting := is_greeting query
  let farewell := is_farewell query
  let broad := is_broad_query query
  if greeting || broad || farewell then
    let usedC := greeting || farewell || decide ((pySplit (pyStrip query)).length ≤ 2)
    let qvec := if usedC then centroidFn embs else embedFn query
    (search embs meta qvec (max top_k 6) (55/100) 30, 3500, usedC)
  else
    (search embs meta (embedFn query) (max top_k 6) (1/2) 40, 4000, false)

/-- `(data.get("chips") or [])`: the chips field, with falsy or missing values
replaced by the empty list. -/
def awiChipsBase (data : Option PyVal) : PyVal :=
  match dataGet data (strLit "chips") with
  | some w => if pyTruthy w then w else .arr []
  | none => .arr []

/-- The answer post-processing of lines 231–273: the farewell override of the
answer text, then the salvage call when the answer looks like a refusal and
strong context is available. -/
def awiAnswerFinal (farewell : Bool) (strong : List RResult) (context : PyStr)
    (salvageFn : PyStr → Option PyStr) (ans : PyStr) : PyStr :=
  let ansPre :=
    if farewell then
      (if FAREWELL_ANS_WORDS.any (fun w => containsSub (pyLower ans) w) then ans
       else GOODBYE_ANS)
    else ans
  if is_refusal ansPre && !strong.isEmpty && decide (500 < context.length) && !farewell then
    match salvageFn (strLit "Summarize in 3 short hyphen bullets:\n\n" ++ context.take 2000) with
    | some s => strip_md (pyStrip s)
    | none => ansPre
  else ansPre

/-- Lines 224–274: strip and parse the raw model reply, sanitise the answer and
chips (either can raise), then post-process both.  `usedC` is threaded through
for the trace. -/
def awiRespond (farewell : Bool) (strong : List RResult) (context : PyStr)
    (salvageFn : PyStr → Option PyStr) (usedC : Bool) (raw : PyStr) : Except Unit AWIOut :=
  match pyStrOfVal (pyValOrEmptyStr (dataGet (parse_json_object (pyStrip raw))
      (strLit "answer"))) with
  | .error e => .error e
  | .ok ans0 =>
    match pyIterate (awiChipsBase (parse_json_object (pyStrip raw))) with
    | .error e => .error e
    | .ok items =>
      match items.mapM chipOfItem with
      | .error e => .error e
      | .ok opts =>
        .ok ⟨awiAnswerFinal farewell strong context salvageFn (strip_md ans0),
             awiFinalChips farewell (opts.filterMap id), usedC, true⟩

/-- `answer_with_index(embs, meta, query, top_k, prev_chips, last_answer)`.
`llm` abstracts the chat completion (prompt to raw reply) and `salvageFn` the
salvage completion (`none` models its `except` path).  `prev_chips` is accepted
and ignored exactly as in the source.  `.error ()` models an uncaught Python
exception (a sentinel failure inside `mmr_select`, or `AttributeError` /
`TypeError` while sanitising the parsed reply). -/
def answer_with_index (centroidFn : List (List ℚ) → List ℚ) (embedFn : PyStr → List ℚ)
    (llm : PyStr → PyStr) (salvageFn : PyStr → Option PyStr)
    (embs : List (List ℚ)) (meta : List MetaRec) (query : PyStr) (top_k : Nat)
    (_prev_chips : Option (List PyStr)) (last_answer : PyStr) : Except Unit AWIOut :=
  let farewell := is_farewell query
  let topic_changed := is_topic_change query last_answer
  let r := awiRetrieval centroidFn embedFn embs meta query top_k
  match r.1 with
  | none => .error ()
  | some hits =>
    if hits.isEmpty then .ok ⟨FALLBACK_ANSWER, FALLBACK_CHIPS, r.2.2, false⟩
    else
      let bc := build_context hits r.2.1 480
      let prompt :=
        if topic_changed || (pyStrip last_answer).isEmpty || farewell || is_greeting query then
          USER_SINGLE_TEMPLATE query bc.1
        else
          USER_SINGLE_TEMPLATE_WITH_CONTEXT query
            (strip_md (if 200 < last_answer.length then last_answer.take 200 ++ strLit "..."
                       else last_answer))
            bc.1
      awiRespond farewell bc.2 bc.1 salvageFn r.2.2 (llm prompt)

/-! ### Lemmas: string normalisation -/

theorem pyStripL_cons (c : Nat) (cs : PyStr) :
    pyStripL (c :: cs) = if isWs c then pyStripL cs else c :: cs := rfl

theorem pyStripR_cons (c : Nat) (cs : PyStr) :
    pyStripR (c :: cs) = if pyStripR cs = [] && isWs c then [] else c :: pyStripR cs := rfl

theorem isWs_toLowerCp (c : Nat) : isWs (toLowerCp c) = isWs c := by
  unfold toLowerCp isWs
  split
  · next h =>
    apply Bool.eq_iff_iff.mpr
    simp only [Bool.or_eq_true, beq_iff_eq]
    omega
  · rfl

theorem toLowerCp_idem (c : Nat) : toLowerCp (toLowerCp c) = toLowerCp c := by
  unfold toLowerCp
  split
  · next h => simp only [if_neg (by omega : ¬(65 ≤ c + 32 ∧ c + 32 ≤ 90))]
  · next h => simp only [if_neg h]

theorem pyLower_pyLower (s : PyStr) : pyLower (pyLower s) = pyLower s := by
  unfold pyLower
  rw [List.map_map]
  exact List.map_congr_left (fun c _ => toLowerCp_idem c)

theorem pyLower_nil : pyLower [] = [] := rfl

theorem pyLower_cons (c : Nat) (cs : PyStr) : pyLower (c :: cs) = toLowerCp c :: pyLower cs := rfl

theorem pyLower_eq_nil {s : PyStr} : pyLower s = [] ↔ s = [] := by
  unfold pyLower
  exact List.map_eq_nil_iff

theorem pyStripL_pyLower (s : PyStr) : pyStripL (pyLower s) = pyLower (pyStripL s) := by
  induction s with
  | nil => rfl
  | cons c cs ih =>
    rw [pyLower_cons, pyStripL_cons, pyStripL_cons, isWs_toLowerCp]
    by_cases h : isWs c = true
    · rw [if_pos h, if_pos h, ih]
    · rw [if_neg h, if_neg h, pyLower_cons]

theorem pyStripR_pyLower (s : PyStr) : pyStripR (pyLower s) = pyLower (pyStripR s) := by
  induction s with
  | nil => rfl
  | cons c cs ih =>
    rw [pyLower_cons, pyStripR_cons, pyStripR_cons, isWs_toLowerCp, ih]
    by_cases hr : pyStripR cs = []
    · rw [hr]
      by_cases hw : isWs c = true
      · rw [if_pos (by simp [hw, pyLower_nil]), if_pos (by simp [hw])]
        rfl
      · rw [if_neg (by simp [hw]), if_neg (by simp [hw])]
        rfl
    · have hrl : ¬(pyLower (pyStripR cs) = []) := by simp [pyLower_eq_nil, hr]
      rw [if_neg (by simp [hrl]), if_neg (by simp [hr]), pyLower_cons]

theorem pyStrip_pyLower (s : PyStr) : pyStrip (pyLower s) = pyLower (pyStrip s) := by
  unfold pyStrip
  rw [pyStripL_pyLower, pyStripR_pyLower]

theorem pyStripL_idem (s : PyStr) : pyStripL (pyStripL s) = pyStripL s := by
  induction s with
  | nil => rfl
  | cons c cs ih =>
    rw [pyStripL_cons]
    by_cases h : isWs c = true
    · rw [if_pos h, ih]
    · rw [if_neg h, pyStripL_cons, if_neg h]

theorem pyStripR_idem (s : PyStr) : pyStripR (pyStripR s) = pyStripR s := by
  induction s with
  | nil => rfl
  | cons c cs ih =>
    rw [pyStripR_cons]
    by_cases h : (pyStripR cs = [] && isWs c) = true
    · rw [if_pos h]
      rfl
    · rw [if_neg h, pyStripR_cons, ih, if_neg h]

theorem pyStripR_eq_nil {s : PyStr} : pyStripR s = [] ↔ s.all isWs = true := by
  induction s with
  | nil => simp [pyStripR]
  | cons c cs ih =>
    rw [pyStripR_cons]
    by_cases h : (pyStripR cs = [] && isWs c) = true
    · rw [if_pos h]
      simp only [Bool.and_eq_true, decide_eq_true_eq] at h
      simp [List.all_cons, h.2, ih.mp h.1]
    · rw [if_neg h]
      constructor
      · intro hc
        exact absurd hc (by simp)
      · intro hall
        simp only [List.all_cons, Bool.and_eq_true] at hall
        exact absurd (by simp [ih.mpr hall.2, hall.1] : (pyStripR cs = [] && isWs c) = true) h

theorem pyStripL_eq_nil {s : PyStr} : pyStripL s = [] ↔ s.all isWs = true := by
  induction s with
  | nil => simp [pyStripL]
  | cons c cs ih =>
    rw [pyStripL_cons]
    by_cases h : isWs c = true
    · simp [h, ih]
    · simp [h]

theorem pyStripL_pyStripR_comm (s : PyStr) : pyStripL (pyStripR s) = pyStripR (pyStripL s) := by
  induction s with
  | nil => rfl
  | cons c cs ih =>
    by_cases hw : isWs c = true
    · by_cases hr : pyStripR cs = []
      · have hl : pyStripL cs = [] := pyStripL_eq_nil.mpr (pyStripR_eq_nil.mp hr)
        rw [pyStripR_cons, if_pos (by simp [hr, hw]), pyStripL_cons, if_pos hw, hl]
        rfl
      · rw [pyStripR_cons, if_neg (by simp [hr]), pyStripL_cons, if_pos hw, ih,
          pyStripL_cons, if_pos hw]
    · rw [pyStripR_cons, if_neg (by simp [hw]), pyStripL_cons, if_neg hw, pyStripL_cons,
        if_neg hw, pyStripR_cons, if_neg (by simp [hw])]

theorem pyStrip_idem (s : PyStr) : pyStrip (pyStrip s) = pyStrip s := by
  unfold pyStrip
  rw [pyStripL_pyStripR_comm (pyStripL s), pyStripL_idem, pyStripR_idem]

theorem pyNorm_idem (s : PyStr) :
    pyLower (pyStrip (pyLower (pyStrip s))) = pyLower (pyStrip s) := by
  rw [pyStrip_pyLower, pyStrip_idem, pyLower_pyLower]

theorem pySplitAux_pyLower (s : PyStr) : ∀ acc : PyStr,
    pySplitAux (pyLower s) (pyLower acc) = (pySplitAux s acc).map pyLower := by
  induction s with
  | nil =>
    intro acc
    by_cases h : acc = []
    · simp [h, pySplitAux, pyLower_nil]
    · have h2 : ¬(pyLower acc = []) := by simp [pyLower_eq_nil, h]
      simp [pySplitAux, h, h2, pyLower, List.map_reverse]
  | cons c cs ih =>
    intro acc
    show pySplitAux (toLowerCp c :: pyLower cs) (pyLower acc) = _
    unfold pySplitAux
    rw [isWs_toLowerCp]
    by_cases hw : isWs c = true
    · by_cases ha : acc = []
      · have h2 : pyLower acc = [] := by simp [pyLower_eq_nil, ha]
        simp only [hw, if_true, ha, h2, if_pos rfl]
        have := ih []
        simpa [pyLower_nil] using this
      · have h2 : ¬(pyLower acc = []) := by simp [pyLower_eq_nil, ha]
        simp only [hw, if_true, ha, h2, if_neg h2, if_neg ha]
        have := ih []
        simp only [pyLower_nil] at this
        rw [this]
        simp [pyLower, List.map_reverse]
    · simp only [hw, Bool.false_eq_true, if_false]
      have := ih (c :: acc)
      simpa [pyLower_cons] using this

theorem pySplit_pyLower (s : PyStr) : pySplit (pyLower s) = (pySplit s).map pyLower := by
  unfold pySplit
  have := pySplitAux_pyLower s []
  simpa [pyLower_nil] using this

theorem pySplit_pyLower_length (s : PyStr) :
    (pySplit (pyLower s)).length = (pySplit s).length := by
  rw [pySplit_pyLower, List.length_map]

/-- The meaningful-common-word emptiness test of `is_topic_change`, rephrased as
a quantified statement. -/
theorem meaningful_common_empty_iff (q a : PyStr) :
    ((((pySplit (pyLower a)).filter (fun w => (pySplit (pyLower (pyStrip q))).contains w)).filter
        (fun w => decide (3 < w.length) && !(STOP_WORDS.contains w))).length = 0)
    ↔ (∀ w ∈ pySplit (pyLower a), w ∈ pySplit (pyLower (pyStrip q)) →
        ¬(3 < w.length ∧ w ∉ STOP_WORDS)) := by
  rw [List.length_eq_zero, List.filter_eq_nil_iff]
  constructor
  · intro h w hw hwq hcl
    have hmem : w ∈ (pySplit (pyLower a)).filter
        (fun w => (pySplit (pyLower (pyStrip q))).contains w) := by
      rw [List.mem_filter]
      exact ⟨hw, List.elem_iff.mpr hwq⟩
    have h2 := h w hmem
    simp only [Bool.and_eq_true, decide_eq_true_eq, Bool.not_eq_true', not_and] at h2
    have h3 := h2 hcl.1
    cases hb : STOP_WORDS.contains w with
    | false => exact h3 hb
    | true => exact hcl.2 (List.elem_iff.mp hb)
  · intro h w hw
    rw [List.mem_filter] at hw
    have h2 := h w hw.1 (List.elem_iff.mp hw.2)
    simp only [not_and, not_not] at h2
    simp only [Bool.and_eq_true, decide_eq_true_eq, Bool.not_eq_true', not_and]
    intro h3
    have h4 : w ∈ STOP_WORDS := h2 h3
    simp only [Bool.not_eq_false, List.elem_iff]
    exact h4

/-- **C9**: `is_topic_change(q, lastAnswer)` returns true iff: q is a greeting or
farewell; or q has at most 2 tokens and its normalised form is not one of the
five single-word question words; or lastAnswer is non-empty, q has more than one
token, and the lowercased word sets of lastAnswer and q share no meaningful
common word (meaningful: length > 3 and not a stop word).  With an empty
lastAnswer only the first two disjuncts can fire. -/
theorem C9_is_topic_change_iff (q a : PyStr) :
    is_topic_change q a = true ↔
      ((is_greeting q = true ∨ is_farewell q = true)
      ∨ ((pySplit (pyStrip q)).length ≤ 2 ∧ pyLower (pyStrip q) ∉ QUESTION_WORDS)
      ∨ (a ≠ [] ∧ 1 < (pySplit (pyStrip q)).length ∧
          ∀ w ∈ pySplit (pyLower a), w ∈ pySplit (pyLower (pyStrip q)) →
            ¬(3 < w.length ∧ w ∉ STOP_WORDS))) := by
  have hg : is_greeting (pyLower (pyStrip q)) = is_greeting q := by
    unfold is_greeting
    rw [pyNorm_idem]
  have hf : is_farewell (pyLower (pyStrip q)) = is_farewell q := by
    unfold is_farewell
    rw [pyNorm_idem]
  have hlen := pySplit_pyLower_length (pyStrip q)
  simp only [is_topic_change]
  by_cases h1 : (is_greeting (pyLower (pyStrip q)) || is_farewell (pyLower (pyStrip q))) = true
  · rw [if_pos h1]
    simp only [Bool.or_eq_true, hg, hf] at h1
    simp [h1]
  · rw [if_neg h1]
    simp only [Bool.or_eq_true, hg, hf, not_or] at h1
    by_cases h2 : (decide ((pySplit (pyLower (pyStrip q))).length ≤ 2)
        && !(QUESTION_WORDS.contains (pyLower (pyStrip q)))) = true
    · rw [if_pos h2]
      simp only [Bool.and_eq_true, decide_eq_true_eq, Bool.not_eq_true', hlen] at h2
      have hqw : pyLower (pyStrip q) ∉ QUESTION_WORDS := by
        intro hm
        have hc : QUESTION_WORDS.contains (pyLower (pyStrip q)) = true := List.elem_iff.mpr hm
        rw [h2.2] at hc
        simp at hc
      simp [h2.1, hqw]
    · rw [if_neg h2]
      simp only [Bool.and_eq_true, decide_eq_true_eq, Bool.not_eq_true', hlen, not_and] at h2
      by_cases h3 : a ≠ []
      · rw [if_pos h3]
        by_cases h4 : ((((pySplit (pyLower a)).filter
              (fun w => (pySplit (pyLower (pyStrip q))).contains w)).filter
              (fun w => decide (3 < w.length) && !(STOP_WORDS.contains w))).length = 0
            && decide (1 < (pySplit (pyLower (pyStrip q))).length)) = true
        · rw [if_pos h4]
          simp only [Bool.and_eq_true, decide_eq_true_eq, hlen] at h4
          have hm := (meaningful_common_empty_iff q a).mp h4.1
          constructor
          · intro _
            exact Or.inr (Or.inr ⟨h3, h4.2, hm⟩)
          · intro _
            rfl
        · rw [if_neg h4]
          simp only [Bool.and_eq_true, decide_eq_true_eq, hlen, not_and] at h4
          constructor
          · intro hc
            exact absurd hc (by simp)
          · intro hc
            rcases hc with hc | hc | hc
            · exact absurd hc (by tauto)
            · rcases hc with ⟨hl2, hqw⟩
              have : QUESTION_WORDS.contains (pyLower (pyStrip q)) = false := by
                cases hb : QUESTION_WORDS.contains (pyLower (pyStrip q)) with
                | false => rfl
                | true => exact absurd (List.elem_iff.mp hb) hqw
              exact absurd this (h2 hl2)
            · rcases hc with ⟨_, hl1, hm⟩
              exact absurd hl1 (by simpa using h4 ((meaningful_common_empty_iff q a).mpr hm))
      · rw [if_neg h3]
        push_neg at h3
        constructor
        · intro hc
          exact absurd hc (by simp)
        · intro hc
          rcases hc with hc | hc | hc
          · exact absurd hc (by tauto)
          · rcases hc with ⟨hl2, hqw⟩
            have : QUESTION_WORDS.contains (pyLower (pyStrip q)) = false := by
              cases hb : QUESTION_WORDS.contains (pyLower (pyStrip q)) with
              | false => rfl
              | true => exact absurd (List.elem_iff.mp hb) hqw
            exact absurd this (h2 hl2)
          · exact absurd h3 hc.1

/-- **C8**: the orchestrator chooses the centroid vector as query vector exactly
when the query is a greeting, a farewell, or has at most 2 whitespace-delimited
tokens; every other query is embedded literally (the `else` branches of
`awiRetrieval` pass `embedFn query` to `search`). -/
theorem C8_centroid_iff (centroidFn : List (List ℚ) → List ℚ) (embedFn : PyStr → List ℚ)
    (embs : List (List ℚ)) (meta : List MetaRec) (q : PyStr) (top_k : Nat) :
    (awiRetrieval centroidFn embedFn embs meta q top_k).2.2 = true ↔
      (is_greeting q = true ∨ is_farewell q = true ∨ (pySplit (pyStrip q)).length ≤ 2) := by
  unfold awiRetrieval
  by_cases h : (is_greeting q || is_broad_query q || is_farewell q) = true
  · rw [if_pos h]
    simp only [Bool.or_eq_true, decide_eq_true_eq]
    tauto
  · rw [if_neg h]
    simp only [Bool.or_eq_true, not_or] at h
    have hb : ¬((pySplit (pyStrip q)).length ≤ 2) := by
      intro hle
      apply h.1.2
      unfold is_broad_query
      have : (pySplit (pyLower (pyStrip q))).length ≤ 2 := by
        rw [pySplit_pyLower_length]
        exact hle
      simp [this]
    simp [h.1.1, h.2, hb]

/-! ### Lemmas and claims: relevance floor -/

theorem length_filter_mono {α : Type} (l : List α) (p q : α → Bool)
    (h : ∀ x ∈ l, p x = true → q x = true) :
    (l.filter p).length ≤ (l.filter q).length := by
  induction l with
  | nil => simp
  | cons x xs ih =>
    have ih2 := ih (fun y hy hp => h y (List.mem_cons_of_mem _ hy) hp)
    by_cases hp : p x = true
    · rw [List.filter_cons_of_pos hp, List.filter_cons_of_pos (h x (List.mem_cons_self _ _) hp)]
      simpa using ih2
    · rw [List.filter_cons_of_neg (by simp [hp])]
      by_cases hq : q x = true
      · rw [List.filter_cons_of_pos hq]
        refine le_trans ih2 ?_
        simp
      · rw [List.filter_cons_of_neg (by simp [hq])]
        exact ih2

/-- **C6** (counterexample): with scores `[1, 1/2, 1/2, 1/2, 1/2]` (first score
maximal, as the floor's input from MMR selection always is), the original floor
`max(0.16, 0.8)` keeps only the top result, while after removing the top result
the floor drops to `max(0.16, 0.4)` and all four remaining results survive —
the surviving count grows from 1 to 4, refuting the claim. -/
theorem C6_counterexample :
    ¬ ((relevance_floor (([⟨1, [], []⟩, ⟨1/2, [], []⟩, ⟨1/2, [], []⟩, ⟨1/2, [], []⟩,
          ⟨1/2, [], []⟩] : List RResult).tail)).length ≤
        (relevance_floor ([⟨1, [], []⟩, ⟨1/2, [], []⟩, ⟨1/2, [], []⟩, ⟨1/2, [], []⟩,
          ⟨1/2, [], []⟩] : List RResult)).length) := by decide

/-- **C6** (amended): for every result list entering the relevance floor filter
(first score maximal), removing the top result and re-applying the floor yields
a surviving count at least the original count minus one — the threshold never
increases, so only the removed top result itself can be lost. -/
theorem C6_floor_removal_amended (r0 : RResult) (rs : List RResult)
    (h : ∀ r ∈ rs, r.score ≤ r0.score) :
    (relevance_floor (r0 :: rs)).length ≤ 1 + (relevance_floor rs).length := by
  cases rs with
  | nil =>
    have h1 : (relevance_floor [r0]).length ≤ ([r0] : List RResult).length :=
      List.length_filter_le _ _
    simpa using h1
  | cons r1 rest =>
    have e0 : relevance_floor (r0 :: r1 :: rest) =
        (r0 :: r1 :: rest).filter
          (fun r => decide (max ((16 : ℚ)/100) ((80/100) * r0.score) ≤ r.score)) := rfl
    have e1 : relevance_floor (r1 :: rest) =
        (r1 :: rest).filter
          (fun r => decide (max ((16 : ℚ)/100) ((80/100) * r1.score) ≤ r.score)) := rfl
    rw [e0, e1]
    have hmono : ((r1 :: rest).filter
        (fun r => decide (max ((16 : ℚ)/100) ((80/100) * r0.score) ≤ r.score))).length ≤
        ((r1 :: rest).filter
        (fun r => decide (max ((16 : ℚ)/100) ((80/100) * r1.score) ≤ r.score))).length := by
      apply length_filter_mono
      intro r _ hp
      simp only [decide_eq_true_eq] at hp ⊢
      refine le_trans ?_ hp
      apply max_le_max le_rfl
      have hr1 : r1.score ≤ r0.score := h r1 (List.mem_cons_self _ _)
      nlinarith
    by_cases hp : (decide (max ((16 : ℚ)/100) ((80/100) * r0.score) ≤ r0.score)) = true
    · rw [@List.filter_cons_of_pos _ (fun r => decide (max ((16 : ℚ)/100) ((80/100) * r0.score) ≤ r.score)) r0 (r1 :: rest) hp]
      simp only [List.length_cons]
      exact Nat.add_le_add_right hmono 1 |>.trans (by omega)
    · rw [@List.filter_cons_of_neg _ (fun r => decide (max ((16 : ℚ)/100) ((80/100) * r0.score) ≤ r.score)) r0 (r1 :: rest) hp]
      exact le_trans hmono (by omega)

/-- Witness for the amended C6 theorem at a concrete two-result list. -/
theorem C6_floor_removal_amended_witness :
    (relevance_floor ([⟨1, [], []⟩, ⟨1/2, [], []⟩] : List RResult)).length ≤
      1 + (relevance_floor ([⟨1/2, [], []⟩] : List RResult)).length :=
  C6_floor_removal_amended ⟨1, [], []⟩ [⟨1/2, [], []⟩] (by decide)

/-! ### Lemmas and claims: context assembler -/

theorem pyJoin_cons2 (sep b b2 : PyStr) (bs : List PyStr) :
    pyJoin sep (b :: b2 :: bs) = b ++ sep ++ pyJoin sep (b2 :: bs) := rfl

theorem pyJoin_length (sep : PyStr) : ∀ bs : List PyStr, bs ≠ [] →
    (pyJoin sep bs).length + sep.length = (bs.map List.length).sum + sep.length * bs.length := by
  intro bs
  induction bs with
  | nil => intro h; exact absurd rfl h
  | cons b bs ih =>
    intro _
    cases bs with
    | nil => simp [pyJoin]
    | cons b2 bs2 =>
      have ihne := ih (by simp)
      rw [pyJoin_cons2]
      simp only [List.length_append, List.map_cons, List.sum_cons, List.length_cons] at ihne ⊢
      have hm : sep.length * (bs2.length + 1 + 1) = sep.length * (bs2.length + 1) + sep.length := by
        ring
      omega

theorem bcAux_spec (b lim : Nat) : ∀ (rs : List RResult) (total : Nat),
    ∃ k, (bcAux b lim rs total).2 = rs.take k
      ∧ (bcAux b lim rs total).1 = (rs.take k).map (bcChunk lim)
      ∧ (0 < k → total + ((rs.take k).map (fun r => (bcChunk lim r).length + 4)).sum ≤ b)
      ∧ (k < rs.length → b < total + ((rs.take (k+1)).map (fun r => (bcChunk lim r).length + 4)).sum) := by
  intro rs
  induction rs with
  | nil =>
    intro total
    exact ⟨0, by simp [bcAux], by simp [bcAux], by simp, by simp⟩
  | cons r rs ih =>
    intro total
    by_cases hb : b < total + ((bcChunk lim r).length + 4)
    · refine ⟨0, ?_, ?_, by simp, ?_⟩
      · simp [bcAux, if_pos hb]
      · simp [bcAux, if_pos hb]
      · intro _
        simpa using hb
    · obtain ⟨k, h1, h2, h3, h4⟩ := ih (total + ((bcChunk lim r).length + 4))
      refine ⟨k + 1, ?_, ?_, ?_, ?_⟩
      · simp [bcAux, if_neg hb, h1]
      · simp [bcAux, if_neg hb, h2]
      · intro _
        simp only [List.take_succ_cons, List.map_cons, List.sum_cons]
        rcases Nat.eq_zero_or_pos k with hk | hk
        · subst hk
          simp only [List.take_zero, List.map_nil, List.sum_nil]
          omega
        · have h5 := h3 hk
          omega
      · intro hlen
        simp only [List.take_succ_cons, List.map_cons, List.sum_cons]
        have h5 := h4 (by simpa using hlen)
        omega

theorem sum_map_chunk_add (lim : Nat) : ∀ l : List RResult,
    (l.map (fun r => (bcChunk lim r).length + 4)).sum =
      ((l.map (bcChunk lim)).map List.length).sum + 4 * l.length := by
  intro l
  induction l with
  | nil => simp
  | cons r rs ih =>
    simp only [List.map_cons, List.sum_cons, List.length_cons, ih]
    ring

/-- **C7** (counterexample): with `charBudget = 20`, `perChunkLimit = 1` and five
empty-text results, every chunk costs `0 + 4` against the budget so all five are
taken, but the five blocks are joined by the 7-character separator, so the
returned string has length `4 * 7 = 28 > 20 + 1 + 4` — the claimed bound of
`charBudget + perChunkLimit + (4-character) separator overhead` fails. -/
theorem C7_counterexample :
    (build_context (List.replicate 5 (⟨0, [], []⟩ : RResult)) 20 1).1.length = 28
    ∧ ¬ ((build_context (List.replicate 5 (⟨0, [], []⟩ : RResult)) 20 1).1.length
          ≤ 20 + 1 + 4) := by
  constructor
  · rfl
  · decide

/-- **C7** (amended): `build_context` takes a greedy prefix of the results — each
taken chunk's cost (stripped, truncated length plus the 4 characters budgeted
per chunk) fits the running `charBudget`, and the first non-fitting chunk stops
the scan; the returned string's length is at most
`charBudget + 3 * (number of taken results)` (the joiner is 7 characters but
only 4 are budgeted per chunk); with `charBudget = 0` the result is the empty
string and the empty subset. -/
theorem C7_build_context (rs : List RResult) (b lim : Nat) :
    ((build_context rs b lim).1.length ≤ b + 3 * (build_context rs b lim).2.length)
    ∧ (∃ k, (build_context rs b lim).2 = rs.take k
        ∧ ((rs.take k).map (fun r => (bcChunk lim r).length + 4)).sum ≤ b
        ∧ (k < rs.length → b < ((rs.take (k+1)).map (fun r => (bcChunk lim r).length + 4)).sum))
    ∧ (b = 0 → build_context rs b lim = ([], [])) := by
  obtain ⟨k, h1, h2, h3, h4⟩ := bcAux_spec b lim rs 0
  simp only [Nat.zero_add] at h3 h4
  have hbc1 : (build_context rs b lim).1 = pyJoin CONTEXT_SEP ((rs.take k).map (bcChunk lim)) := by
    have e : (build_context rs b lim).1 = pyJoin CONTEXT_SEP (bcAux b lim rs 0).1 := rfl
    rw [e, h2]
  have hbc2 : (build_context rs b lim).2 = rs.take k := h1
  refine ⟨?_, ⟨k, hbc2, ?_, h4⟩, ?_⟩
  · rw [hbc1, hbc2]
    by_cases hk : (rs.take k).map (bcChunk lim) = []
    · rw [hk]
      simp [pyJoin]
    · have hkpos : 0 < k := by
        rcases Nat.eq_zero_or_pos k with h0 | h0
        · subst h0
          simp at hk
        · exact h0
      have hj := pyJoin_length CONTEXT_SEP ((rs.take k).map (bcChunk lim)) hk
      have hsum := h3 hkpos
      rw [sum_map_chunk_add] at hsum
      have hsep : CONTEXT_SEP.length = 7 := rfl
      rw [hsep] at hj
      have hlen : ((rs.take k).map (bcChunk lim)).length = (rs.take k).length :=
        List.length_map _ _
      omega
  · rcases Nat.eq_zero_or_pos k with h0 | h0
    · subst h0
      simp
    · exact h3 h0
  · intro hb0
    subst hb0
    cases rs with
    | nil => rfl
    | cons r rest =>
      have : (0 : Nat) < 0 + ((bcChunk lim r).length + 4) := by omega
      have e : build_context (r :: rest) 0 lim =
          (pyJoin CONTEXT_SEP (bcAux 0 lim (r :: rest) 0).1, (bcAux 0 lim (r :: rest) 0).2) := rfl
      rw [e, show bcAux 0 lim (r :: rest) 0 = ([], []) from by simp [bcAux, if_pos this]]
      rfl

/-- Witness for the amended C7 theorem: the zero-budget clause at a concrete list. -/
theorem C7_build_context_witness :
    build_context [(⟨1, [], [104, 105]⟩ : RResult)] 0 500 = ([], []) :=
  (C7_build_context [⟨1, [], [104, 105]⟩] 0 500).2.2 rfl

/-! ### Lemmas: the argsort order -/

theorem argsortRel_total (sims : List ℚ) (i j : Nat) :
    argsortRel sims i j ∨ argsortRel sims j i := by
  unfold argsortRel
  rcases lt_trichotomy (sims.getD i 0) (sims.getD j 0) with h | h | h
  · exact Or.inr (Or.inl h)
  · rcases Nat.le_total i j with hij | hij
    · exact Or.inl (Or.inr ⟨h, hij⟩)
    · exact Or.inr (Or.inr ⟨h.symm, hij⟩)
  · exact Or.inl (Or.inl h)

theorem argsortRel_trans (sims : List ℚ) (i j k : Nat)
    (h1 : argsortRel sims i j) (h2 : argsortRel sims j k) : argsortRel sims i k := by
  unfold argsortRel at h1 h2 ⊢
  rcases h1 with h1 | ⟨h1e, h1le⟩
  · rcases h2 with h2 | ⟨h2e, _⟩
    · exact Or.inl (lt_trans h2 h1)
    · exact Or.inl (h2e ▸ h1)
  · rcases h2 with h2 | ⟨h2e, h2le⟩
    · exact Or.inl (h1e ▸ h2)
    · exact Or.inr ⟨h1e.trans h2e, h1le.trans h2le⟩

instance argsortRelIsTotal (sims : List ℚ) : IsTotal Nat (argsortRel sims) :=
  ⟨argsortRel_total sims⟩

instance argsortRelIsTrans (sims : List ℚ) : IsTrans Nat (argsortRel sims) :=
  ⟨argsortRel_trans sims⟩

theorem argsortDesc_sorted (sims : List ℚ) :
    List.Sorted (argsortRel sims) (argsortDesc sims) :=
  List.sorted_insertionSort (argsortRel sims) (List.range sims.length)

theorem argsortDesc_perm (sims : List ℚ) :
    (argsortDesc sims).Perm (List.range sims.length) :=
  List.perm_insertionSort (argsortRel sims) (List.range sims.length)

theorem argsortDesc_nodup (sims : List ℚ) : (argsortDesc sims).Nodup :=
  ((argsortDesc_perm sims).nodup_iff).mpr (List.nodup_range _)

theorem argsortDesc_length (sims : List ℚ) : (argsortDesc sims).length = sims.length := by
  rw [(argsortDesc_perm sims).length_eq, List.length_range]

theorem mmrPool_nodup (sims : List ℚ) (ps : Nat) : (mmrPool sims ps).Nodup :=
  (argsortDesc_nodup sims).sublist (List.take_sublist _ _)

theorem mmrPool_sorted (sims : List ℚ) (ps : Nat) :
    List.Sorted (argsortRel sims) (mmrPool sims ps) :=
  (argsortDesc_sorted sims).sublist (List.take_sublist _ _)

theorem mmrPool_length (sims : List ℚ) (ps : Nat) :
    (mmrPool sims ps).length = min ps sims.length := by
  unfold mmrPool
  rw [List.length_take, argsortDesc_length]
  omega

theorem argsortRel_score_le (sims : List ℚ) (i j : Nat) (h : argsortRel sims i j) :
    sims.getD j 0 ≤ sims.getD i 0 := by
  unfold argsortRel at h
  rcases h with h | ⟨h, _⟩
  · exact le_of_lt h
  · exact le_of_eq h.symm

theorem sorted_head_score_max (sims : List ℚ) (p0 : Nat) (rest : List Nat)
    (h : List.Sorted (argsortRel sims) (p0 :: rest)) :
    ∀ i ∈ p0 :: rest, sims.getD i 0 ≤ sims.getD p0 0 := by
  intro i hi
  rcases List.mem_cons.mp hi with rfl | hi
  · exact le_refl _
  · exact argsortRel_score_le sims p0 i (List.rel_of_sorted_cons h i hi)

theorem getD_bounds (sims : List ℚ) (hs : ∀ s ∈ sims, -1 ≤ s ∧ s ≤ 1) (i : Nat) :
    -1 ≤ sims.getD i 0 ∧ sims.getD i 0 ≤ 1 := by
  by_cases h : i < sims.length
  · rw [List.getD_eq_getElem sims 0 h]
    exact hs _ (List.getElem_mem h)
  · rw [List.getD_eq_default sims 0 (by omega)]
    norm_num

/-! ### Lemmas: the MMR selection loop -/

theorem mmrBest_fold_mem (score : Nat → ℚ) : ∀ (l : List Nat) (acc : Option Nat × ℚ) (i : Nat),
    (l.foldl (fun acc i => if acc.2 < score i then (some i, score i) else acc) acc).1 = some i →
    acc.1 = some i ∨ i ∈ l := by
  intro l
  induction l with
  | nil => exact fun acc i h => Or.inl h
  | cons x xs ih =>
    intro acc i h
    simp only [List.foldl_cons] at h
    rcases ih _ i h with h2 | h2
    · by_cases hc : acc.2 < score x
      · rw [if_pos hc] at h2
        simp only [Option.some.injEq] at h2
        exact Or.inr (h2 ▸ List.mem_cons_self x xs)
      · rw [if_neg hc] at h2
        exact Or.inl h2
    · exact Or.inr (List.mem_cons_of_mem x h2)

theorem mmrBest_mem (score : Nat → ℚ) (l : List Nat) (i : Nat)
    (h : (mmrBest score l).1 = some i) : i ∈ l := by
  rcases mmrBest_fold_mem score l (none, -(1000000000 : ℚ)) i h with h2 | h2
  · exact absurd h2 (by simp)
  · exact h2

theorem mmrBest_fold_eq (score : Nat → ℚ) : ∀ (xs : List Nat) (b : Nat),
    xs.foldl (fun acc i => if acc.2 < score i then (some i, score i) else acc) (some b, score b)
      = (some (argmaxFirst score b xs), score (argmaxFirst score b xs)) := by
  intro xs
  induction xs with
  | nil => intro b; rfl
  | cons y ys ih =>
    intro b
    simp only [List.foldl_cons, argmaxFirst] at ih ⊢
    by_cases hc : score b < score y
    · rw [if_pos hc, if_pos hc]
      exact ih y
    · rw [if_neg hc, if_neg hc]
      exact ih b

theorem mmrBest_eq_argmax (score : Nat → ℚ) (x : Nat) (xs : List Nat)
    (h : ∀ i ∈ x :: xs, -(1000000000 : ℚ) < score i) :
    mmrBest score (x :: xs) = (some (argmaxFirst score x xs), score (argmaxFirst score x xs)) := by
  unfold mmrBest
  simp only [List.foldl_cons]
  rw [if_pos (h x (List.mem_cons_self x xs))]
  exact mmrBest_fold_eq score xs x

theorem pyMax_bounds (a b : ℚ) : ∀ (xs : List ℚ) (x : ℚ),
    (∀ y ∈ x :: xs, a ≤ y ∧ y ≤ b) → a ≤ pyMax (x :: xs) ∧ pyMax (x :: xs) ≤ b := by
  intro xs
  induction xs with
  | nil =>
    intro x h
    exact h x (List.mem_cons_self x [])
  | cons y ys ih =>
    intro x h
    show a ≤ (y :: ys).foldl max x ∧ (y :: ys).foldl max x ≤ b
    simp only [List.foldl_cons]
    have hx := h x (List.mem_cons_self _ _)
    have hy := h y (List.mem_cons_of_mem _ (List.mem_cons_self _ _))
    have hmax : a ≤ max x y ∧ max x y ≤ b :=
      ⟨le_trans hx.1 (le_max_left x y), max_le hx.2 hy.2⟩
    have := ih (max x y) (by
      intro z hz
      rcases List.mem_cons.mp hz with rfl | hz
      · exact hmax
      · exact h z (List.mem_cons_of_mem _ (List.mem_cons_of_mem _ hz)))
    exact this

theorem mmrScore_gt_sentinel (sims : List ℚ) (embs : List (List ℚ)) (lam : ℚ)
    (selected : List Nat) (i : Nat)
    (hlam0 : 0 ≤ lam) (hlam1 : lam ≤ 1)
    (hs : ∀ s ∈ sims, -1 ≤ s ∧ s ≤ 1)
    (hd : ∀ i j, -1 ≤ dotL (embs.getD i []) (embs.getD j []) ∧
        dotL (embs.getD i []) (embs.getD j []) ≤ 1) :
    -(1000000000 : ℚ) < mmrScore sims embs lam selected i := by
  show -(1000000000 : ℚ) < lam * sims.getD i 0 - (1 - lam) *
      (if selected = [] then 0
        else pyMax (selected.map (fun j => dotL (embs.getD i []) (embs.getD j []))))
  have hrel := getD_bounds sims hs i
  have hdiv : -1 ≤ (if selected = [] then 0
        else pyMax (selected.map (fun j => dotL (embs.getD i []) (embs.getD j [])))) ∧
      (if selected = [] then 0
        else pyMax (selected.map (fun j => dotL (embs.getD i []) (embs.getD j [])))) ≤ 1 := by
    by_cases hsel : selected = []
    · simp only [hsel, if_pos rfl]
      norm_num
    · simp only [if_neg hsel]
      cases selected with
      | nil => exact absurd rfl hsel
      | cons j js =>
        simp only [List.map_cons]
        apply pyMax_bounds
        intro y hy
        rcases List.mem_cons.mp hy with rfl | hy
        · exact hd i j
        · obtain ⟨j2, _, rfl⟩ := List.mem_map.mp hy
          exact hd i j2
  have h1 : -1 ≤ lam * sims.getD i 0 - (1 - lam) *
      (if selected = [] then 0
        else pyMax (selected.map (fun j => dotL (embs.getD i []) (embs.getD j [])))) := by
    nlinarith [hrel.1, hrel.2, hdiv.1, hdiv.2]
  linarith

theorem filter_in_length_le {α : Type} [BEq α] [LawfulBEq α] [DecidableEq α]
    (pool selected : List α) (hnd : pool.Nodup) :
    (pool.filter (fun i => selected.contains i)).length ≤ selected.length := by
  have hnd2 : (pool.filter (fun i => selected.contains i)).Nodup := hnd.filter _
  have hsub : ∀ x ∈ pool.filter (fun i => selected.contains i), x ∈ selected := by
    intro x hx
    exact List.elem_iff.mp ((List.mem_filter.mp hx).2)
  calc (pool.filter (fun i => selected.contains i)).length
      = (pool.filter (fun i => selected.contains i)).toFinset.card :=
        (List.toFinset_card_of_nodup hnd2).symm
    _ ≤ selected.toFinset.card := by
        apply Finset.card_le_card
        intro x hx
        rw [List.mem_toFinset] at hx ⊢
        exact hsub x hx
    _ ≤ selected.length := List.toFinset_card_le selected

theorem remaining_length_ge {α : Type} [BEq α] [LawfulBEq α] [DecidableEq α]
    (pool selected : List α) (hnd : pool.Nodup) :
    pool.length ≤ (pool.filter (fun i => !(selected.contains i))).length + selected.length := by
  have hsplit : pool.length = (pool.filter (fun i => selected.contains i)).length +
      (pool.filter (fun i => !(selected.contains i))).length :=
    List.length_eq_length_filter_add _
  have := filter_in_length_le pool selected hnd
  omega

theorem mmrLoop_props (sims : List ℚ) (embs : List (List ℚ)) (lam : ℚ) (pool : List Nat) :
    ∀ (fuel : Nat) (selected sel : List Nat),
    mmrLoop sims embs lam pool fuel selected = some sel →
    sel.length = selected.length + fuel
    ∧ (∀ i ∈ sel, i ∈ selected ∨ i ∈ pool)
    ∧ (selected.Nodup → sel.Nodup)
    ∧ (∃ t, sel = selected ++ t) := by
  intro fuel
  induction fuel with
  | zero =>
    intro selected sel h
    simp only [mmrLoop, Option.some.injEq] at h
    subst h
    exact ⟨by omega, fun i hi => Or.inl hi, fun h => h, ⟨[], by simp⟩⟩
  | succ fuel ih =>
    intro selected sel h
    simp only [mmrLoop] at h
    rcases hbest : (mmrBest (mmrScore sims embs lam selected)
        (pool.filter (fun i => !(selected.contains i)))).1 with _ | i
    · rw [hbest] at h
      exact absurd h (by simp)
    · rw [hbest] at h
      have hi : i ∈ pool.filter (fun i => !(selected.contains i)) :=
        mmrBest_mem _ _ _ hbest
      have hipool : i ∈ pool := List.mem_of_mem_filter hi
      have hinotsel : i ∉ selected := by
        have hfalse := (List.mem_filter.mp hi).2
        simp only [Bool.not_eq_true'] at hfalse
        intro hmem
        have hc : selected.contains i = true := List.elem_eq_true_of_mem hmem
        rw [hfalse] at hc
        exact absurd hc (by simp)
      obtain ⟨hlen, hmem, hnd, t, ht⟩ := ih (selected ++ [i]) sel h
      refine ⟨by simp only [List.length_append, List.length_singleton] at hlen; omega, ?_, ?_, ?_⟩
      · intro x hx
        rcases hmem x hx with hx2 | hx2
        · rcases List.mem_append.mp hx2 with hx3 | hx3
          · exact Or.inl hx3
          · simp only [List.mem_singleton] at hx3
            exact Or.inr (hx3 ▸ hipool)
        · exact Or.inr hx2
      · intro hndsel
        exact hnd (by simp [List.nodup_append, hndsel, hinotsel])
      · exact ⟨i :: t, by simpa using ht⟩

theorem mmr_select_props (sims : List ℚ) (embs : List (List ℚ)) (top_k : Nat) (lam : ℚ)
    (ps : Nat) (sel : List Nat) (h : mmr_select sims embs top_k lam ps = some sel) :
    (∀ i ∈ sel, i ∈ mmrPool sims ps)
    ∧ sel.Nodup
    ∧ (mmrPool sims ps = [] → sel = [])
    ∧ (∀ p0 rest, mmrPool sims ps = p0 :: rest →
        sel.length = 1 + (min top_k (mmrPool sims ps).length - 1) ∧ ∃ t, sel = p0 :: t) := by
  unfold mmr_select at h
  cases hpool : mmrPool sims ps with
  | nil =>
    rw [hpool] at h
    have h2 : some ([] : List Nat) = some sel := h
    simp only [Option.some.injEq] at h2
    subst h2
    exact ⟨by simp, List.nodup_nil, fun _ => rfl, fun p0 rest hr => absurd hr (by simp)⟩
  | cons p0 rest =>
    rw [hpool] at h
    have h2 : mmrLoop sims embs lam (p0 :: rest) (min top_k (p0 :: rest).length - 1) [p0]
        = some sel := h
    obtain ⟨hlen, hmem, hnd, t, ht⟩ :=
      mmrLoop_props sims embs lam (p0 :: rest) _ [p0] sel h2
    refine ⟨?_, hnd (by simp), ?_, ?_⟩
    · intro i hi
      rcases hmem i hi with hmse | hmse
      · simp only [List.mem_singleton] at hmse
        rw [hmse]
        exact List.mem_cons_self _ _
      · exact hmse
    · intro he
      exact absurd he (by simp)
    · intro q0 qrest hq
      injection hq with hq1 _
      subst hq1
      constructor
      · simpa using hlen
      · exact ⟨t, by simpa using ht⟩

/-- **C4** (counterexample): with `topK = 0` the seed `pool_idx[0]` is still taken
unconditionally, so `mmr_select` returns one index even though
`min(topK, poolSize, N) = 0`. -/
theorem C4_counterexample :
    mmr_select [(1 : ℚ)/2] [[1]] 0 (1/2) 40 = some [0]
    ∧ ¬ (([0] : List Nat).length ≤ min 0 (min 40 1)) := by
  constructor
  · rfl
  · decide

/-- **C4** (amended): every successful `mmr_select` run returns pairwise-distinct
indices, and whenever `topK ≥ 1` the selection has at most
`min(topK, poolSize, N)` elements (for `topK = 0` the unconditional seed makes
the count exceed that bound, as the counterexample shows). -/
theorem C4_mmr_nodup_length (sims : List ℚ) (embs : List (List ℚ)) (top_k : Nat) (lam : ℚ)
    (ps : Nat) (sel : List Nat) (h : mmr_select sims embs top_k lam ps = some sel) :
    sel.Nodup ∧ (1 ≤ top_k → sel.length ≤ min top_k (min ps sims.length)) := by
  obtain ⟨hmem, hnd, hnil, hcons⟩ := mmr_select_props sims embs top_k lam ps sel h
  refine ⟨hnd, ?_⟩
  intro htk
  cases hpool : mmrPool sims ps with
  | nil =>
    rw [hnil hpool]
    simp
  | cons p0 rest =>
    obtain ⟨hlen, _⟩ := hcons p0 rest hpool
    have hplen : (mmrPool sims ps).length = min ps sims.length := mmrPool_length sims ps
    rw [hpool] at hplen
    have hple : (p0 :: rest).length ≥ 1 := by simp
    have hmin := Nat.min_le_left top_k (p0 :: rest).length
    have hmin2 := Nat.min_le_right top_k (p0 :: rest).length
    rw [hpool] at hlen
    omega

/-- Witness for the amended C4 theorem at a concrete three-chunk index. -/
theorem C4_mmr_nodup_length_witness :
    ([0, 2] : List Nat).Nodup ∧ (1 ≤ 2 → ([0, 2] : List Nat).length ≤ min 2 (min 3 3)) :=
  C4_mmr_nodup_length [9/10, 85/100, 2/10] [[1,0],[1,0],[0,1]] 2 (1/2) 3 [0, 2] (by decide)

theorem argmaxFirst_mem (f : Nat → ℚ) : ∀ (xs : List Nat) (x : Nat),
    argmaxFirst f x xs ∈ x :: xs := by
  intro xs
  induction xs with
  | nil => intro x; simp [argmaxFirst]
  | cons y ys ih =>
    intro x
    show (y :: ys).foldl (fun b z => if f b < f z then z else b) x ∈ x :: y :: ys
    simp only [List.foldl_cons]
    by_cases hc : f x < f y
    · rw [if_pos hc]
      exact List.mem_cons_of_mem x (ih y)
    · rw [if_neg hc]
      show argmaxFirst f x ys ∈ x :: y :: ys
      rcases List.mem_cons.mp (ih x) with h | h
      · rw [h]
        exact List.mem_cons_self _ _
      · exact List.mem_cons_of_mem x (List.mem_cons_of_mem y h)

theorem mmrLoop_eq_spec (sims : List ℚ) (embs : List (List ℚ)) (lam : ℚ) (pool : List Nat)
    (hlam0 : 0 ≤ lam) (hlam1 : lam ≤ 1)
    (hs : ∀ s ∈ sims, -1 ≤ s ∧ s ≤ 1)
    (hd : ∀ i j, -1 ≤ dotL (embs.getD i []) (embs.getD j []) ∧
        dotL (embs.getD i []) (embs.getD j []) ≤ 1)
    (hpool : pool.Nodup) :
    ∀ (fuel : Nat) (selected : List Nat), selected.Nodup →
      selected.length + fuel ≤ pool.length →
      mmrLoop sims embs lam pool fuel selected =
        some (mmrSpecLoop sims embs lam pool fuel selected) := by
  intro fuel
  induction fuel with
  | zero =>
    intro selected _ _
    rfl
  | succ fuel ih =>
    intro selected hnd hlen
    have hremlen : 1 ≤ (pool.filter (fun i => !(selected.contains i))).length := by
      have := remaining_length_ge pool selected hpool
      omega
    obtain ⟨r0, rest, hrem⟩ : ∃ r0 rest,
        pool.filter (fun i => !(selected.contains i)) = r0 :: rest := by
      cases hc : pool.filter (fun i => !(selected.contains i)) with
      | nil => rw [hc] at hremlen; simp at hremlen
      | cons a b => exact ⟨a, b, rfl⟩
    have hbest := mmrBest_eq_argmax (mmrScore sims embs lam selected) r0 rest
      (fun i _ => mmrScore_gt_sentinel sims embs lam selected i hlam0 hlam1 hs hd)
    have hpickmem : argmaxFirst (mmrScore sims embs lam selected) r0 rest ∈
        pool.filter (fun i => !(selected.contains i)) := by
      rw [hrem]
      exact argmaxFirst_mem _ rest r0
    have hpickpool : argmaxFirst (mmrScore sims embs lam selected) r0 rest ∈ pool :=
      List.mem_of_mem_filter hpickmem
    have hpicknotsel : argmaxFirst (mmrScore sims embs lam selected) r0 rest ∉ selected := by
      have hfalse := (List.mem_filter.mp hpickmem).2
      simp only [Bool.not_eq_true'] at hfalse
      intro hmem
      have hc : selected.contains (argmaxFirst (mmrScore sims embs lam selected) r0 rest)
          = true := List.elem_eq_true_of_mem hmem
      rw [hfalse] at hc
      exact absurd hc (by simp)
    simp only [mmrLoop, mmrSpecLoop]
    rw [hrem, hbest]
    exact ih (selected ++ [argmaxFirst (mmrScore sims embs lam selected) r0 rest])
      (by simp [List.nodup_append, hnd, hpicknotsel])
      (by simp only [List.length_append, List.length_singleton]; omega)

/-- **C1**: on its data-model domain (`λ ∈ [0,1]`, similarities and pairwise
embedding dot products in `[-1,1]`, as guaranteed by unit-normalized vectors),
`mmr_select` follows the specified MMR procedure exactly: pool the `poolSize`
highest-scoring indices under the stable descending sort (ties by original
index), seed with the single highest-scoring pooled candidate, then repeatedly
add the remaining pooled candidate maximizing
`λ·similarity − (1−λ)·max-dot-to-selected`, first candidate in pool order
winning ties.  The bounds keep every combined score above the `-1e9` sentinel,
so the code's argmax never degenerates. -/
theorem C1_mmr_follows_spec (sims : List ℚ) (embs : List (List ℚ)) (top_k : Nat) (lam : ℚ)
    (ps : Nat) (hlam0 : 0 ≤ lam) (hlam1 : lam ≤ 1)
    (hs : ∀ s ∈ sims, -1 ≤ s ∧ s ≤ 1)
    (hd : ∀ i j, -1 ≤ dotL (embs.getD i []) (embs.getD j []) ∧
        dotL (embs.getD i []) (embs.getD j []) ≤ 1) :
    mmr_select sims embs top_k lam ps = some (mmr_spec sims embs top_k lam ps) := by
  unfold mmr_select mmr_spec
  cases hpool : mmrPool sims ps with
  | nil => rfl
  | cons p0 rest =>
    have hnd : (mmrPool sims ps).Nodup := mmrPool_nodup sims ps
    rw [hpool] at hnd
    have hlen : 1 + (min top_k (p0 :: rest).length - 1) ≤ (p0 :: rest).length := by
      have h1 := Nat.min_le_right top_k (p0 :: rest).length
      have h2 : 1 ≤ (p0 :: rest).length := by simp
      omega
    exact mmrLoop_eq_spec sims embs lam (p0 :: rest) hlam0 hlam1 hs hd hnd
      (min top_k (p0 :: rest).length - 1) [p0] (by simp) (by simpa using hlen)

/-- Witness for C1 at a concrete three-chunk index with two-dimensional
unit vectors. -/
theorem C1_mmr_follows_spec_witness :
    ((0 : ℚ) ≤ 1/2 ∧ (1/2 : ℚ) ≤ 1
      ∧ (∀ s ∈ [(9 : ℚ)/10, 85/100, 2/10], -1 ≤ s ∧ s ≤ 1))
    ∧ mmr_select [(9 : ℚ)/10, 85/100, 2/10] [[1,0],[1,0],[0,1]] 2 (1/2) 3 =
        some (mmr_spec [(9 : ℚ)/10, 85/100, 2/10] [[1,0],[1,0],[0,1]] 2 (1/2) 3) := by
  refine ⟨⟨by norm_num, by norm_num, by decide⟩, ?_⟩
  apply C1_mmr_follows_spec
  · norm_num
  · norm_num
  · decide
  · intro i j
    have hmem : ∀ a ∈ [[(1 : ℚ), 0], [1, 0], [0, 1]], ∀ b ∈ [[(1 : ℚ), 0], [1, 0], [0, 1]],
        -1 ≤ dotL a b ∧ dotL a b ≤ 1 := by decide
    by_cases hi : i < 3
    · by_cases hj : j < 3
      · have hai : ([[(1 : ℚ), 0], [1, 0], [0, 1]].getD i []) ∈ [[(1 : ℚ), 0], [1, 0], [0, 1]] := by
          interval_cases i <;> decide
        have haj : ([[(1 : ℚ), 0], [1, 0], [0, 1]].getD j []) ∈ [[(1 : ℚ), 0], [1, 0], [0, 1]] := by
          interval_cases j <;> decide
        exact hmem _ hai _ haj
      · have : ([[(1 : ℚ), 0], [1, 0], [0, 1]].getD j []) = [] :=
          List.getD_eq_default _ _ (by simp; omega)
        rw [this]
        unfold dotL
        simp
    · have : ([[(1 : ℚ), 0], [1, 0], [0, 1]].getD i []) = [] :=
        List.getD_eq_default _ _ (by simp; omega)
      rw [this]
      unfold dotL
      simp

theorem filter_take_eq_drop : ∀ (pool : List Nat), pool.Nodup → ∀ (m : Nat),
    pool.filter (fun i => !((pool.take m).contains i)) = pool.drop m := by
  intro pool
  induction pool with
  | nil => intro _ m; simp
  | cons x ps ih =>
    intro hnd m
    have hxnot : x ∉ ps := (List.nodup_cons.mp hnd).1
    have hndps : ps.Nodup := (List.nodup_cons.mp hnd).2
    cases m with
    | zero =>
      simp only [List.take_zero, List.drop_zero]
      apply List.filter_eq_self.mpr
      intro a _
      simp
    | succ m =>
      simp only [List.take_succ_cons, List.drop_succ_cons]
      rw [List.filter_cons_of_neg (by simp)]
      have hcongr : ps.filter (fun i => !((x :: ps.take m).contains i)) =
          ps.filter (fun i => !((ps.take m).contains i)) := by
        apply List.filter_congr
        intro a ha
        have hax : a ≠ x := fun he => hxnot (he ▸ ha)
        simp only [List.contains_cons]
        have : (a == x) = false := by
          simp [hax]
        rw [this]
        simp
      rw [hcongr, ih hndps m]

theorem argmaxFirst_head (f : Nat → ℚ) : ∀ (xs : List Nat) (x : Nat),
    (∀ y ∈ xs, f y ≤ f x) → argmaxFirst f x xs = x := by
  intro xs
  induction xs with
  | nil => intro x _; rfl
  | cons y ys ih =>
    intro x h
    show (y :: ys).foldl (fun b z => if f b < f z then z else b) x = x
    simp only [List.foldl_cons]
    rw [if_neg (not_lt.mpr (h y (List.mem_cons_self _ _)))]
    exact ih x (fun z hz => h z (List.mem_cons_of_mem _ hz))

theorem mmrScore_lam1 (sims : List ℚ) (embs : List (List ℚ)) (selected : List Nat) (i : Nat) :
    mmrScore sims embs 1 selected i = sims.getD i 0 := by
  show (1 : ℚ) * sims.getD i 0 - (1 - 1) *
      (if selected = [] then 0
        else pyMax (selected.map (fun j => dotL (embs.getD i []) (embs.getD j [])))) =
    sims.getD i 0
  ring

theorem mmrLoopLam1 (sims : List ℚ) (embs : List (List ℚ)) (pool : List Nat)
    (hpool : pool.Nodup) (hsort : List.Sorted (argsortRel sims) pool)
    (hs : ∀ s ∈ sims, -1 ≤ s ∧ s ≤ 1) :
    ∀ (fuel m : Nat), 0 < m → m + fuel ≤ pool.length →
      mmrLoop sims embs 1 pool fuel (pool.take m) = some (pool.take (m + fuel)) := by
  intro fuel
  induction fuel with
  | zero =>
    intro m _ _
    rfl
  | succ fuel ih =>
    intro m hm hlen
    have hmlt : m < pool.length := by omega
    have hdrop : pool.drop m = pool.get ⟨m, hmlt⟩ :: pool.drop (m + 1) :=
      List.drop_eq_get_cons hmlt
    have hrem : pool.filter (fun i => !((pool.take m).contains i)) =
        pool.get ⟨m, hmlt⟩ :: pool.drop (m + 1) := by
      rw [filter_take_eq_drop pool hpool m, hdrop]
    have hsorted_drop : List.Sorted (argsortRel sims) (pool.get ⟨m, hmlt⟩ :: pool.drop (m + 1)) := by
      rw [← hdrop]
      exact hsort.sublist (List.drop_sublist m pool)
    have hmax : ∀ y ∈ pool.drop (m + 1),
        mmrScore sims embs 1 (pool.take m) y ≤ mmrScore sims embs 1 (pool.take m) (pool.get ⟨m, hmlt⟩) := by
      intro y hy
      rw [mmrScore_lam1, mmrScore_lam1]
      exact argsortRel_score_le sims _ y (List.rel_of_sorted_cons hsorted_drop y hy)
    have hargmax : argmaxFirst (mmrScore sims embs 1 (pool.take m))
        (pool.get ⟨m, hmlt⟩) (pool.drop (m + 1)) = pool.get ⟨m, hmlt⟩ :=
      argmaxFirst_head _ _ _ hmax
    have hbest := mmrBest_eq_argmax (mmrScore sims embs 1 (pool.take m))
      (pool.get ⟨m, hmlt⟩) (pool.drop (m + 1))
      (fun i _ => by
        rw [mmrScore_lam1]
        have := getD_bounds sims hs i
        linarith)
    simp only [mmrLoop]
    rw [hrem, hbest, hargmax]
    have htake : pool.take m ++ [pool.get ⟨m, hmlt⟩] = pool.take (m + 1) := by
      have h2 := List.take_concat_get' pool m hmlt
      simpa using h2
    show mmrLoop sims embs 1 pool fuel (pool.take m ++ [pool.get ⟨m, hmlt⟩]) =
      some (pool.take (m + (fuel + 1)))
    rw [htake, ih (m + 1) (by omega) (by omega)]
    congr 2
    omega

/-- **C5** (counterexample): with `topK = 0` and `λ = 1`, the plain top-K list is
empty, but `mmr_select` still returns the unconditionally-taken seed `[0]`. -/
theorem C5_counterexample :
    mmr_select [(1 : ℚ)/2, 1/4] [[1], [1]] 0 1 40 = some [0]
    ∧ some ([0] : List Nat) ≠
        some ((mmrPool [(1 : ℚ)/2, 1/4] 40).take (min 0 (mmrPool [(1 : ℚ)/2, 1/4] 40).length)) := by
  constructor
  · rfl
  · intro h
    have h2 : ([0] : List Nat) =
        (mmrPool [(1 : ℚ)/2, 1/4] 40).take (min 0 (mmrPool [(1 : ℚ)/2, 1/4] 40).length) :=
      Option.some.inj h
    rw [show (mmrPool [(1 : ℚ)/2, 1/4] 40).take (min 0 (mmrPool [(1 : ℚ)/2, 1/4] 40).length)
        = [] from rfl] at h2
    exact absurd h2 (by simp)

/-- **C5** (amended): with `λ = 1` (and similarities in `[-1,1]`), `mmr_select`
returns exactly the initial segment of the stable descending-similarity order:
the first `min(topK, poolSize, N)` indices, except that for `topK = 0` the
unconditionally-taken seed yields the single top index instead of the empty
list — i.e. the prefix of length `max(1, min(topK, pool length))` whenever the
pool is non-empty.  The diversity term is multiplied by `1 − λ = 0` and cannot
affect selection. -/
theorem C5_lam1_topk (sims : List ℚ) (embs : List (List ℚ)) (top_k : Nat) (ps : Nat)
    (hs : ∀ s ∈ sims, -1 ≤ s ∧ s ≤ 1) :
    mmr_select sims embs top_k 1 ps =
      some ((mmrPool sims ps).take (max 1 (min top_k (mmrPool sims ps).length))) := by
  unfold mmr_select
  cases hpool : mmrPool sims ps with
  | nil => simp
  | cons p0 rest =>
    have hnd : (mmrPool sims ps).Nodup := mmrPool_nodup sims ps
    have hsort : List.Sorted (argsortRel sims) (mmrPool sims ps) := mmrPool_sorted sims ps
    rw [hpool] at hnd hsort
    have h1 : [p0] = (p0 :: rest).take 1 := rfl
    have hlen1 : 1 ≤ (p0 :: rest).length := by simp
    have hminle := Nat.min_le_right top_k (p0 :: rest).length
    have hloop := mmrLoopLam1 sims embs (p0 :: rest) hnd hsort hs
      (min top_k (p0 :: rest).length - 1) 1 (by omega) (by omega)
    show mmrLoop sims embs 1 (p0 :: rest) (min top_k (p0 :: rest).length - 1) [p0] =
      some ((p0 :: rest).take (max 1 (min top_k (p0 :: rest).length)))
    rw [h1, hloop]
    congr 2
    omega

/-- Witness for the amended C5 theorem at a concrete three-chunk index. -/
theorem C5_lam1_topk_witness :
    mmr_select [(9 : ℚ)/10, 85/100, 2/10] [[1,0],[1,0],[0,1]] 2 1 3 =
      some ((mmrPool [(9 : ℚ)/10, 85/100, 2/10] 3).take
        (max 1 (min 2 (mmrPool [(9 : ℚ)/10, 85/100, 2/10] 3).length))) :=
  C5_lam1_topk [(9 : ℚ)/10, 85/100, 2/10] [[1,0],[1,0],[0,1]] 2 3 (by decide)

/-- **C2**: whenever `search` returns a non-empty result list, with `s_max` the
first returned result's score, every returned result's score is at least
`max(0.16, 0.80 * s_max)`, and every materialized (pre-filter) result whose
score is below that threshold is absent from the returned list. -/
theorem C2_relevance_floor (embs : List (List ℚ)) (meta : List MetaRec) (qvec : List ℚ)
    (top_k : Nat) (lam : ℚ) (ps : Nat) (r0 : RResult) (rest : List RResult)
    (h : search embs meta qvec top_k lam ps = some (r0 :: rest)) :
    (∀ r ∈ r0 :: rest, max ((16 : ℚ)/100) ((80/100) * r0.score) ≤ r.score)
    ∧ (∀ idx, mmr_select (simsOf embs qvec) embs top_k lam ps = some idx →
        ∀ r ∈ materialize (simsOf embs qvec) meta idx,
          r.score < max ((16 : ℚ)/100) ((80/100) * r0.score) → r ∉ r0 :: rest) := by
  unfold search at h
  obtain ⟨idx, hmmr, hfloor⟩ := Option.map_eq_some'.mp h
  obtain ⟨hmem, hnd, hnil, hcons⟩ :=
    mmr_select_props (simsOf embs qvec) embs top_k lam ps idx hmmr
  cases hpool : mmrPool (simsOf embs qvec) ps with
  | nil =>
    rw [hnil hpool] at hfloor
    exact absurd hfloor (by simp [materialize, relevance_floor])
  | cons p0 prest =>
    obtain ⟨_, t, ht⟩ := hcons p0 prest hpool
    subst ht
    have hsorted : List.Sorted (argsortRel (simsOf embs qvec)) (p0 :: prest) := by
      have h2 := mmrPool_sorted (simsOf embs qvec) ps
      rw [hpool] at h2
      exact h2
    have hbound : ∀ i ∈ p0 :: t, (simsOf embs qvec).getD i 0 ≤ (simsOf embs qvec).getD p0 0 := by
      intro i hi
      apply sorted_head_score_max (simsOf embs qvec) p0 prest hsorted
      have h2 := hmem i hi
      rw [hpool] at h2
      exact h2
    have hmatscore : ∀ r ∈ materialize (simsOf embs qvec) meta (p0 :: t),
        r.score ≤ (simsOf embs qvec).getD p0 0 := by
      intro r hr
      obtain ⟨i, hi, rfl⟩ := List.mem_map.mp hr
      exact hbound i hi
    have hfilterform : relevance_floor (materialize (simsOf embs qvec) meta (p0 :: t)) =
        (materialize (simsOf embs qvec) meta (p0 :: t)).filter
          (fun r => decide (max ((16 : ℚ)/100) ((80/100) * (simsOf embs qvec).getD p0 0)
            ≤ r.score)) := rfl
    have hpass : max ((16 : ℚ)/100) ((80/100) * (simsOf embs qvec).getD p0 0)
        ≤ (simsOf embs qvec).getD p0 0 := by
      by_contra hnp
      push_neg at hnp
      have hempty : relevance_floor (materialize (simsOf embs qvec) meta (p0 :: t)) = [] := by
        rw [hfilterform]
        apply List.filter_eq_nil_iff.mpr
        intro r hr
        simp only [decide_eq_true_eq, not_le]
        exact lt_of_le_of_lt (hmatscore r hr) hnp
      rw [hempty] at hfloor
      exact absurd hfloor (by simp)
    have hr0 : r0 = (⟨(simsOf embs qvec).getD p0 0, (meta.getD p0 ⟨[], []⟩).source,
        (meta.getD p0 ⟨[], []⟩).text⟩ : RResult) := by
      have hm : materialize (simsOf embs qvec) meta (p0 :: t) =
          (⟨(simsOf embs qvec).getD p0 0, (meta.getD p0 ⟨[], []⟩).source,
            (meta.getD p0 ⟨[], []⟩).text⟩ : RResult) ::
          materialize (simsOf embs qvec) meta t := rfl
      rw [hfilterform, hm, List.filter_cons_of_pos (by simp only [decide_eq_true_eq]; exact hpass)]
        at hfloor
      exact (List.cons.injEq _ _ _ _ ▸ hfloor).1.symm
    have hscore0 : r0.score = (simsOf embs qvec).getD p0 0 := by
      rw [hr0]
    constructor
    · intro r hr
      rw [← hfloor, hfilterform] at hr
      have := (List.mem_filter.mp hr).2
      simp only [decide_eq_true_eq] at this
      rw [hscore0]
      exact this
    · intro idx2 hmmr2 r hrm hrlt
      have hidx : idx2 = p0 :: t := by
        have h3 := hmmr2.symm.trans hmmr
        exact Option.some.inj h3
      subst hidx
      intro hrin
      rw [← hfloor, hfilterform] at hrin
      have := (List.mem_filter.mp hrin).2
      simp only [decide_eq_true_eq] at this
      rw [hscore0] at hrlt
      exact absurd this (not_le.mpr hrlt)

/-- Witness for C2 at a one-chunk index where the single result survives the floor. -/
theorem C2_relevance_floor_witness :
    (∀ r ∈ [(⟨1, strLit "s1", strLit "t1"⟩ : RResult)],
      max ((16 : ℚ)/100) ((80/100) * (⟨1, strLit "s1", strLit "t1"⟩ : RResult).score) ≤ r.score)
    ∧ (∀ idx, mmr_select (simsOf [[1]] [1]) [[1]] 6 (1/2) 40 = some idx →
        ∀ r ∈ materialize (simsOf [[1]] [1]) [⟨strLit "s1", strLit "t1"⟩] idx,
          r.score < max ((16 : ℚ)/100) ((80/100) * (⟨1, strLit "s1", strLit "t1"⟩ : RResult).score) →
            r ∉ [(⟨1, strLit "s1", strLit "t1"⟩ : RResult)]) :=
  C2_relevance_floor [[1]] [⟨strLit "s1", strLit "t1"⟩] [1] 6 (1/2) 40
    ⟨1, strLit "s1", strLit "t1"⟩ [] rfl

/-- **C3**: when no results survive the relevance floor (the retrieval stage
yields `some []`), `answer_with_index` short-circuits with the fixed fallback
answer and the fixed generic fallback chips; the language-model argument is
never consulted (`llm` is arbitrary here and `llmCalled = false`). -/
theorem C3_no_evidence_fallback (centroidFn : List (List ℚ) → List ℚ)
    (embedFn : PyStr → List ℚ) (llm : PyStr → PyStr) (salvageFn : PyStr → Option PyStr)
    (embs : List (List ℚ)) (meta : List MetaRec) (query : PyStr) (top_k : Nat)
    (prev : Option (List PyStr)) (last_answer : PyStr)
    (h : (awiRetrieval centroidFn embedFn embs meta query top_k).1 = some []) :
    answer_with_index centroidFn embedFn llm salvageFn embs meta query top_k prev last_answer
      = .ok ⟨FALLBACK_ANSWER, FALLBACK_CHIPS,
          (awiRetrieval centroidFn embedFn embs meta query top_k).2.2, false⟩ := by
  simp only [answer_with_index, h]
  rfl

/-- Witness for C3: a three-token query whose embedding scores below the
absolute floor, so the single chunk is dropped and the fallback is returned. -/
theorem C3_no_evidence_fallback_witness :
    (awiRetrieval (fun _ => [1]) (fun _ => [1/100]) [[1]] [⟨strLit "s1", strLit "t1"⟩]
        (strLit "qq ww ee") 6).1 = some []
    ∧ answer_with_index (fun _ => [1]) (fun _ => [1/100]) (fun _ => strLit "ignored")
        (fun _ => none) [[1]] [⟨strLit "s1", strLit "t1"⟩] (strLit "qq ww ee") 6 none []
      = .ok ⟨FALLBACK_ANSWER, FALLBACK_CHIPS,
          (awiRetrieval (fun _ => [1]) (fun _ => [1/100]) [[1]] [⟨strLit "s1", strLit "t1"⟩]
            (strLit "qq ww ee") 6).2.2, false⟩ :=
  ⟨rfl, C3_no_evidence_fallback (fun _ => [1]) (fun _ => [1/100]) (fun _ => strLit "ignored")
    (fun _ => none) [[1]] [⟨strLit "s1", strLit "t1"⟩] (strLit "qq ww ee") 6 none [] rfl⟩

/-! ### Lemmas and claims: chips guarantees -/

theorem backfillLoop_length : ∀ (bs : List PyStr) (chips : List PyStr),
    bs.Nodup → chips.length < 3 →
    3 ≤ chips.length + (bs.filter (fun b => !(chips.contains b))).length →
    (backfillLoop bs chips).length = 3 := by
  intro bs
  induction bs with
  | nil =>
    intro chips _ hlt hfresh
    simp only [List.filter_nil, List.length_nil] at hfresh
    omega
  | cons b bs ih =>
    intro chips hnd hlt hfresh
    have hbnotbs : b ∉ bs := (List.nodup_cons.mp hnd).1
    have hndbs : bs.Nodup := (List.nodup_cons.mp hnd).2
    by_cases hcont : chips.contains b = true
    · have hloop : backfillLoop (b :: bs) chips = backfillLoop bs chips := by
        simp only [backfillLoop, hcont, if_true]
        rw [if_neg (by omega)]
      rw [hloop]
      apply ih chips hndbs hlt
      rw [List.filter_cons_of_neg (by rw [hcont]; simp)] at hfresh
      exact hfresh
    · have hcf : chips.contains b = false := by
        revert hcont
        cases chips.contains b <;> simp
      have hfc : (!chips.contains b) = true := by rw [hcf]; rfl
      rw [@List.filter_cons_of_pos _ (fun a => !(chips.contains a)) b bs hfc] at hfresh
      simp only [List.length_cons] at hfresh
      by_cases hfull : 3 ≤ (chips ++ [b]).length
      · have hloop : backfillLoop (b :: bs) chips = chips ++ [b] := by
          simp only [backfillLoop, hcont, Bool.false_eq_true, if_false]
          rw [if_pos hfull]
        rw [hloop]
        simp only [List.length_append, List.length_singleton] at hfull ⊢
        omega
      · have hloop : backfillLoop (b :: bs) chips = backfillLoop bs (chips ++ [b]) := by
          simp only [backfillLoop, hcont, Bool.false_eq_true, if_false]
          rw [if_neg hfull]
        rw [hloop]
        apply ih (chips ++ [b]) hndbs (by simp at hfull ⊢; omega)
        have hsame : bs.filter (fun a => !((chips ++ [b]).contains a)) =
            bs.filter (fun a => !(chips.contains a)) := by
          apply List.filter_congr
          intro a ha
          have hab : a ≠ b := fun he => hbnotbs (he ▸ ha)
          have hceq : (chips ++ [b]).contains a = chips.contains a := by
            apply Bool.eq_iff_iff.mpr
            simp only [List.elem_iff, List.mem_append, List.mem_singleton]
            constructor
            · intro hh
              rcases hh with hh | hh
              · exact hh
              · exact absurd hh hab
            · intro hh
              exact Or.inl hh
          rw [hceq]
        rw [hsame]
        simp only [List.length_append, List.length_singleton]
        omega

theorem backfill_fresh (chips : List PyStr) :
    3 ≤ chips.length + (BACKFILL_CHIPS.filter (fun b => !(chips.contains b))).length := by
  have hnd : BACKFILL_CHIPS.Nodup := by decide
  have hsplit : BACKFILL_CHIPS.length =
      (BACKFILL_CHIPS.filter (fun b => chips.contains b)).length +
      (BACKFILL_CHIPS.filter (fun b => !(chips.contains b))).length :=
    List.length_eq_length_filter_add _
  have hin := filter_in_length_le BACKFILL_CHIPS chips hnd
  have h5 : BACKFILL_CHIPS.length = 5 := rfl
  omega

theorem awiFinalChips_spec (farewell : Bool) (chips0 : List PyStr) :
    3 ≤ (awiFinalChips farewell chips0).length
    ∧ (awiFinalChips farewell chips0).length ≤ 5
    ∧ (farewell = true → awiFinalChips farewell chips0 = FAREWELL_CHIPS) := by
  unfold awiFinalChips
  by_cases hf : farewell = true
  · subst hf
    simp only [if_true]
    exact ⟨by decide, by decide, fun _ => rfl⟩
  · simp only [hf, Bool.false_eq_true, if_false]
    refine ⟨?_, ?_, fun hc => hc.elim⟩
    · by_cases hlen : chips0.length < 3
      · rw [if_pos hlen]
        have h3 := backfillLoop_length BACKFILL_CHIPS chips0 (by decide) hlen
          (backfill_fresh chips0)
        rw [List.length_take, h3]
        omega
      · rw [if_neg hlen]
        rw [List.length_take]
        omega
    · by_cases hlen : chips0.length < 3
      · rw [if_pos hlen, List.length_take]
        omega
      · rw [if_neg hlen, List.length_take]
        omega

theorem awiRespond_ok_chips (farewell : Bool) (strong : List RResult) (context : PyStr)
    (salvageFn : PyStr → Option PyStr) (usedC : Bool) (raw : PyStr) (out : AWIOut)
    (h : awiRespond farewell strong context salvageFn usedC raw = .ok out) :
    ∃ chips0, out.chips = awiFinalChips farewell chips0 := by
  unfold awiRespond at h
  cases h1 : pyStrOfVal (pyValOrEmptyStr (dataGet (parse_json_object (pyStrip raw))
      (strLit "answer"))) with
  | error e =>
    rw [h1] at h
    exact absurd h (by simp)
  | ok ans0 =>
    rw [h1] at h
    dsimp only at h
    cases h2 : pyIterate (awiChipsBase (parse_json_object (pyStrip raw))) with
    | error e =>
      rw [h2] at h
      exact absurd h (by simp)
    | ok items =>
      rw [h2] at h
      dsimp only at h
      cases h3 : items.mapM chipOfItem with
      | error e =>
        rw [h3] at h
        exact absurd h (by simp)
      | ok opts =>
        rw [h3] at h
        have h4 := Except.ok.inj h
        exact ⟨opts.filterMap id, by rw [← h4]⟩

theorem answer_with_index_ok_chips (centroidFn : List (List ℚ) → List ℚ)
    (embedFn : PyStr → List ℚ) (llm : PyStr → PyStr) (salvageFn : PyStr → Option PyStr)
    (embs : List (List ℚ)) (meta : List MetaRec) (query : PyStr) (top_k : Nat)
    (prev : Option (List PyStr)) (last_answer : PyStr) (out : AWIOut)
    (h : answer_with_index centroidFn embedFn llm salvageFn embs meta query top_k prev
        last_answer = .ok out)
    (hllm : out.llmCalled = true) :
    ∃ chips0, out.chips = awiFinalChips (is_farewell query) chips0 := by
  revert h
  unfold answer_with_index
  dsimp only
  cases hr : (awiRetrieval centroidFn embedFn embs meta query top_k).1 with
  | none =>
    dsimp only
    intro h
    exact absurd h (by simp)
  | some hits =>
    dsimp only
    by_cases hemp : hits.isEmpty = true
    · rw [if_pos hemp]
      intro h
      have h4 := Except.ok.inj h
      rw [← h4] at hllm
      exact absurd hllm (by simp)
    · rw [if_neg hemp]
      intro h
      exact awiRespond_ok_chips _ _ _ _ _ _ out h

/-- **C10** (counterexample): a retrieval with one surviving result (non-empty
outcome) and the parseable reply `{"answer":"x","chips":[1]}`: the chips
comprehension calls `.strip()` on the integer `1` and raises `AttributeError`,
so `answer_with_index` raises instead of returning any 3–5 chip list. -/
theorem C10_counterexample :
    (awiRetrieval (fun _ => [1]) (fun _ => [1]) [[1]] [⟨strLit "s1", strLit "t1"⟩]
        (strLit "qq ww ee") 6).1 = some [⟨1, strLit "s1", strLit "t1"⟩]
    ∧ answer_with_index (fun _ => [1]) (fun _ => [1])
        (fun _ => strLit "\x7b\"answer\":\"x\",\"chips\":[1]\x7d") (fun _ => none)
        [[1]] [⟨strLit "s1", strLit "t1"⟩] (strLit "qq ww ee") 6 none [] = .error () :=
  ⟨rfl, rfl⟩

/-- **C10** (amended): whenever `answer_with_index` *returns* (rather than
raising on an ill-typed reply field) after a non-empty retrieval outcome
(`llmCalled = true`), the chips list has between 3 and 5 entries, and a
farewell query always gets exactly the three fixed general-help chips. -/
theorem C10_chips_guarantee (centroidFn : List (List ℚ) → List ℚ)
    (embedFn : PyStr → List ℚ) (llm : PyStr → PyStr) (salvageFn : PyStr → Option PyStr)
    (embs : List (List ℚ)) (meta : List MetaRec) (query : PyStr) (top_k : Nat)
    (prev : Option (List PyStr)) (last_answer : PyStr) (out : AWIOut)
    (h : answer_with_index centroidFn embedFn llm salvageFn embs meta query top_k prev
        last_answer = .ok out)
    (hllm : out.llmCalled = true) :
    (3 ≤ out.chips.length ∧ out.chips.length ≤ 5)
    ∧ (is_farewell query = true → out.chips = FAREWELL_CHIPS) := by
  obtain ⟨chips0, hc⟩ := answer_with_index_ok_chips centroidFn embedFn llm salvageFn embs
    meta query top_k prev last_answer out h hllm
  obtain ⟨h1, h2, h3⟩ := awiFinalChips_spec (is_farewell query) chips0
  rw [hc]
  exact ⟨⟨h1, h2⟩, h3⟩

/-- Witness for the amended C10 theorem: an unparseable reply backfills exactly
three chips. -/
theorem C10_chips_guarantee_witness :
    (3 ≤ ([strLit "Show key topics covered", strLit "Outline main sections in these docs",
        strLit "What should I read first"] : List PyStr).length
      ∧ ([strLit "Show key topics covered", strLit "Outline main sections in these docs",
        strLit "What should I read first"] : List PyStr).length ≤ 5)
    ∧ (is_farewell (strLit "qq ww ee") = true →
        ([strLit "Show key topics covered", strLit "Outline main sections in these docs",
          strLit "What should I read first"] : List PyStr) = FAREWELL_CHIPS) :=
  C10_chips_guarantee (fun _ => [1]) (fun _ => [1]) (fun _ => strLit "junk") (fun _ => none)
    [[1]] [⟨strLit "s1", strLit "t1"⟩] (strLit "qq ww ee") 6 none []
    ⟨[], [strLit "Show key topics covered", strLit "Outline main sections in these docs",
      strLit "What should I read first"], false, true⟩ rfl rfl
